import Mathlib

/-
  Verification development for the dropbox-ignore-daemon repository.

  The Go sources are shallowly embedded:
  - Go maps become association lists (List (String × _)) with last-write-wins
    insertion (mapInsert) and first-match lookup (mlookup); the key-uniqueness
    that Go maps enforce structurally is carried as an invariant.
  - time.Time values become Nat timestamps; time.Duration comparisons
    now.Sub(t) >= d are rendered overflow-safely as t + d <= now.
  - The watcher event loop (internal/watcher/watcher.go) is a step function
    over an input trace of raw fsnotify notifications and flush-ticker ticks.
  - The poller scan (internal/poller/poller.go) is a recursive walk over a
    filesystem tree mirroring filepath.WalkDir, with the walk callback
    modelled verbatim as walkCallback.
  - The state cache (internal/state/state.go) is an association list with TTL.
-/

namespace DropIgn

/-- Go error values as the daemon distinguishes them: the ErrSkipDir sentinel
(declared in internal/poller/poller.go) or any other error, abstracted by a
message string. none stands for a nil error. -/
inductive GoErr where
  | skipDir : GoErr
  | msg (s : String) : GoErr
  deriving DecidableEq, Repr

/-- Model of Go map assignment m[k] = v: the new binding replaces any existing
binding for k (last write wins, at most one binding per key). -/
def mapInsert {α : Type} (m : List (String × α)) (k : String) (v : α) :
    List (String × α) :=
  (k, v) :: m.filter (fun kv => decide (kv.1 ≠ k))

/-- Model of Go map lookup m[k]. -/
def mlookup {α : Type} (m : List (String × α)) (k : String) : Option α :=
  match m with
  | [] => none
  | (k', v) :: rest => if k' = k then some v else mlookup rest k

/-- Model of Go delete(m, k). -/
def mapDelete {α : Type} (m : List (String × α)) (k : String) :
    List (String × α) :=
  m.filter (fun kv => decide (kv.1 ≠ k))

/-- The keys of an association list. -/
def mkeys {α : Type} (m : List (String × α)) : List String := m.map Prod.fst

theorem mlookup_eq_none {α : Type} (m : List (String × α)) (k : String)
    (h : ∀ kv ∈ m, kv.1 ≠ k) : mlookup m k = none := by
  induction m with
  | nil => rfl
  | cons kv rest ih =>
      simp only [mlookup]
      rw [if_neg (h kv (List.mem_cons_self kv rest))]
      exact ih (fun kv hkv => h kv (List.mem_cons_of_mem _ hkv))

theorem mlookup_mapInsert_self {α : Type} (m : List (String × α)) (k : String)
    (v : α) : mlookup (mapInsert m k v) k = some v := by
  simp [mapInsert, mlookup]

theorem mlookup_filter_other {α : Type} (m : List (String × α)) (k p : String)
    (h : k ≠ p) :
    mlookup (m.filter (fun kv => decide (kv.1 ≠ k))) p = mlookup m p := by
  induction m with
  | nil => rfl
  | cons kv rest ih =>
      cases kv with
      | mk k1 v1 =>
          by_cases hk : k1 = k
          · subst hk
            rw [List.filter_cons_of_neg (by simp)]
            rw [ih]
            simp only [mlookup]
            rw [if_neg (fun hkp => h hkp)]
          · rw [List.filter_cons_of_pos (by simp [hk])]
            simp only [mlookup]
            by_cases hp : k1 = p
            · rw [if_pos hp, if_pos hp]
            · rw [if_neg hp, if_neg hp]
              exact ih

theorem mlookup_mapInsert_ne {α : Type} (m : List (String × α)) (k p : String)
    (v : α) (h : k ≠ p) : mlookup (mapInsert m k v) p = mlookup m p := by
  simp only [mapInsert, mlookup, if_neg h]
  exact mlookup_filter_other m k p h

theorem mlookup_some_mem {α : Type} (m : List (String × α)) (k : String)
    (v : α) (h : mlookup m k = some v) : (k, v) ∈ m := by
  induction m with
  | nil => simp [mlookup] at h
  | cons kv rest ih =>
      cases kv with
      | mk k1 v1 =>
          simp only [mlookup] at h
          by_cases hk : k1 = k
          · rw [if_pos hk] at h
            subst hk
            cases h
            exact List.mem_cons_self _ _
          · rw [if_neg hk] at h
            exact List.mem_cons_of_mem _ (ih h)

theorem mkeys_filter_sublist {α : Type} (m : List (String × α))
    (f : String × α → Bool) : (mkeys (m.filter f)).Sublist (mkeys m) :=
  List.Sublist.map Prod.fst (List.filter_sublist m)

theorem mkeys_nodup_filter {α : Type} (m : List (String × α))
    (f : String × α → Bool) (h : (mkeys m).Nodup) :
    (mkeys (m.filter f)).Nodup :=
  (mkeys_filter_sublist m f).nodup h

theorem mkeys_nodup_mapInsert {α : Type} (m : List (String × α)) (k : String)
    (v : α) (h : (mkeys m).Nodup) : (mkeys (mapInsert m k v)).Nodup := by
  simp only [mapInsert, mkeys, List.map_cons, List.nodup_cons]
  constructor
  · intro hmem
    obtain ⟨kv, hkv, hfst⟩ := List.mem_map.mp hmem
    have h2 := (List.mem_filter.mp hkv).2
    simp only [decide_eq_true_eq] at h2
    exact h2 hfst
  · exact mkeys_nodup_filter m _ h

theorem mlookup_filter_ne_none {α : Type} (m : List (String × α)) (k : String) :
    mlookup (m.filter (fun kv => decide (kv.1 ≠ k))) k = none := by
  apply mlookup_eq_none
  intro kv hkv
  have := (List.mem_filter.mp hkv).2
  simpa using this

/-! Watcher: event batching and debouncing (internal/watcher/watcher.go). -/

/-- fsnotify.Create bit. -/
def opCreate : Nat := 1

/-- fsnotify.Write bit. -/
def opWrite : Nat := 2

/-- fsnotify.Remove bit. -/
def opRemove : Nat := 4

/-- fsnotify.Rename bit. -/
def opRename : Nat := 8

/-- fsnotify.Chmod bit. -/
def opChmod : Nat := 16

/-- Event from watcher.go: path, fsnotify op bitmask, receipt timestamp. -/
structure WEvent where
  path : String
  op : Nat
  time : Nat
  deriving DecidableEq, Repr

/-- The pending-event buffer w.pending, a map from path to its latest event. -/
abbrev Pending := List (String × WEvent)

/-- The relevance filter in Watcher.handleEvent:
event.Op AND (Create|Write|Rename) is nonzero. -/
def relevantOp (op : Nat) : Bool := op &&& (opCreate ||| opWrite ||| opRename) != 0

/-- Watcher.handleEvent: irrelevant ops are dropped; a relevant notification
for a path overwrites the pending entry for that path with the current time
(last-write-wins coalescing). The async new-directory watch registration has
no effect on the pending buffer and is not modelled here. -/
def handleEvent (pending : Pending) (name : String) (op : Nat) (now : Nat) :
    Pending :=
  if relevantOp op then mapInsert pending name ⟨name, op, now⟩ else pending

/-- Watcher.flushPending at time now: entries whose age reached the debounce
duration (event.time + debounce <= now, the overflow-free rendering of
now.Sub(event.Time) >= debounce) are removed from the buffer and dispatched
to the handler; younger entries stay. Returns (new buffer, dispatch batch). -/
def flushPending (debounce : Nat) (pending : Pending) (now : Nat) :
    Pending × List WEvent :=
  (pending.filter (fun kv => decide (¬ (kv.2.time + debounce ≤ now))),
   (pending.filter (fun kv => decide (kv.2.time + debounce ≤ now))).map Prod.snd)

/-- Inputs driving the two buffer-relevant arms of the Watcher.Run select
loop: a raw notification or a flush-ticker tick, each time-stamped. -/
inductive WIn where
  | notify (name : String) (op : Nat) (t : Nat)
  | tick (t : Nat)
  deriving DecidableEq, Repr

/-- Timestamp of an input. -/
def WIn.time : WIn → Nat
  | .notify _ _ t => t
  | .tick t => t

/-- Run the buffer-relevant part of the Watcher.Run event loop over an input
trace: notifications feed handleEvent, ticks run flushPending; dispatched
events are accumulated in order tagged with their flush time. -/
def wrun (debounce : Nat) (pending : Pending) : List WIn → Pending × List (Nat × WEvent)
  | [] => (pending, [])
  | .notify n op t :: is => wrun debounce (handleEvent pending n op t) is
  | .tick t :: is =>
      let r := flushPending debounce pending t
      let rest := wrun debounce r.1 is
      (rest.1, r.2.map (fun e => (t, e)) ++ rest.2)

/-- The (op, time) list of raw notifications for path p in a trace. -/
def pNotifs (p : String) : List WIn → List (Nat × Nat)
  | [] => []
  | .notify n op t :: rest =>
      if n = p then (op, t) :: pNotifs p rest else pNotifs p rest
  | .tick _ :: rest => pNotifs p rest

/-- The dispatched events that reached the Handler for path p. -/
def dispatchesFor (p : String) (ds : List (Nat × WEvent)) : List (Nat × WEvent) :=
  ds.filter (fun d => decide (d.2.path = p))

/-- Recognizer for a flush tick at or after the cutoff time c. -/
def isQualTick (c : Nat) : WIn → Bool
  | .tick t => decide (c ≤ t)
  | .notify _ _ _ => false

/-- Time of the first flush tick at or after the cutoff c in the trace. -/
def firstQualTick (τ : List WIn) (c : Nat) : Option Nat :=
  (τ.find? (isQualTick c)).map WIn.time

/-- Well-formedness of the pending buffer: every entry is keyed by its own
path (as handleEvent maintains) and keys are unique (a Go map invariant). -/
def pendingWF (m : Pending) : Prop :=
  (∀ kv ∈ m, kv.2.path = kv.1) ∧ (mkeys m).Nodup

theorem pendingWF_nil : pendingWF [] := by
  constructor
  · intro kv hkv
    cases hkv
  · exact List.nodup_nil

theorem pendingWF_tail {kv : String × WEvent} {m : Pending}
    (h : pendingWF (kv :: m)) : pendingWF m := by
  obtain ⟨h1, h2⟩ := h
  exact ⟨fun x hx => h1 x (List.mem_cons_of_mem _ hx),
    (List.nodup_cons.mp h2).2⟩

theorem pendingWF_handleEvent (m : Pending) (n : String) (op t : Nat)
    (h : pendingWF m) : pendingWF (handleEvent m n op t) := by
  unfold handleEvent
  by_cases hrel : relevantOp op
  · rw [if_pos hrel]
    obtain ⟨h1, h2⟩ := h
    constructor
    · intro kv hkv
      rcases List.mem_cons.mp hkv with heq | hmem
      · subst heq; rfl
      · exact h1 kv (List.mem_of_mem_filter hmem)
    · exact mkeys_nodup_mapInsert m n _ h2
  · rw [if_neg hrel]
    exact h

theorem pendingWF_flushPending (deb : Nat) (m : Pending) (now : Nat)
    (h : pendingWF m) : pendingWF (flushPending deb m now).1 := by
  obtain ⟨h1, h2⟩ := h
  constructor
  · intro kv hkv
    exact h1 kv (List.mem_of_mem_filter hkv)
  · exact mkeys_nodup_filter m _ h2

theorem pendingWF_wrun (deb : Nat) :
    ∀ (τ : List WIn) (m : Pending), pendingWF m → pendingWF (wrun deb m τ).1 := by
  intro τ
  induction τ with
  | nil => intro m h; exact h
  | cons i is ih =>
      intro m h
      cases i with
      | notify n op t =>
          simp only [wrun]
          exact ih _ (pendingWF_handleEvent m n op t h)
      | tick t =>
          simp only [wrun]
          exact ih _ (pendingWF_flushPending deb m t h)

theorem handleEvent_irrelevant (m : Pending) (n : String) (op t : Nat)
    (h : relevantOp op = false) : handleEvent m n op t = m := by
  unfold handleEvent
  rw [if_neg (by simp [h])]

theorem handleEvent_lookup_self (m : Pending) (p : String) (op t : Nat)
    (hrel : relevantOp op = true) :
    mlookup (handleEvent m p op t) p = some ⟨p, op, t⟩ := by
  unfold handleEvent
  rw [if_pos hrel]
  exact mlookup_mapInsert_self m p _

theorem handleEvent_lookup_ne (m : Pending) (n p : String) (op t : Nat)
    (h : n ≠ p) : mlookup (handleEvent m n op t) p = mlookup m p := by
  unfold handleEvent
  by_cases hrel : relevantOp op
  · rw [if_pos hrel]
    exact mlookup_mapInsert_ne m n p _ h
  · rw [if_neg hrel]

theorem flush_lookup (deb now : Nat) (p : String) :
    ∀ (m : Pending), pendingWF m →
    mlookup (flushPending deb m now).1 p =
      (match mlookup m p with
       | some e => if e.time + deb ≤ now then none else some e
       | none => none) := by
  intro m
  induction m with
  | nil => intro _; rfl
  | cons kv rest ih =>
      intro hwf
      cases kv with
      | mk k1 v1 =>
          have ihr := ih (pendingWF_tail hwf)
          by_cases hc : v1.time + deb ≤ now
          · have hfilt : (flushPending deb ((k1, v1) :: rest) now).1 =
                (flushPending deb rest now).1 := by
              simp only [flushPending]
              rw [List.filter_cons_of_neg (by simp [hc])]
            rw [hfilt]
            by_cases hk : k1 = p
            · subst hk
              have hrest : mlookup rest k1 = none := by
                apply mlookup_eq_none
                intro kv hkv hk
                have := (List.nodup_cons.mp hwf.2).1
                exact this (hk ▸ List.mem_map.mpr ⟨kv, hkv, rfl⟩)
              rw [ihr, hrest]
              simp [mlookup, hc]
            · rw [ihr]
              simp only [mlookup]
              rw [if_neg hk]
          · have hfilt : (flushPending deb ((k1, v1) :: rest) now).1 =
                (k1, v1) :: (flushPending deb rest now).1 := by
              simp only [flushPending]
              rw [List.filter_cons_of_pos (by simp [hc])]
            rw [hfilt]
            by_cases hk : k1 = p
            · subst hk
              simp [mlookup, hc]
            · simp only [mlookup]
              rw [if_neg hk, if_neg hk]
              exact ihr

theorem flush_disp (deb now : Nat) (p : String) :
    ∀ (m : Pending), pendingWF m →
    ((flushPending deb m now).2.filter (fun e => decide (e.path = p))) =
      (match mlookup m p with
       | some e => if e.time + deb ≤ now then [e] else []
       | none => []) := by
  intro m
  induction m with
  | nil => intro _; rfl
  | cons kv rest ih =>
      intro hwf
      cases kv with
      | mk k1 v1 =>
          have ihr := ih (pendingWF_tail hwf)
          have hpath : v1.path = k1 := hwf.1 (k1, v1) (List.mem_cons_self _ _)
          by_cases hc : v1.time + deb ≤ now
          · have hfilt : (flushPending deb ((k1, v1) :: rest) now).2 =
                v1 :: (flushPending deb rest now).2 := by
              simp only [flushPending]
              rw [List.filter_cons_of_pos (by simp [hc])]
              rfl
            rw [hfilt]
            by_cases hk : k1 = p
            · subst hk
              have hrest : mlookup rest k1 = none := by
                apply mlookup_eq_none
                intro kv hkv hkk
                have := (List.nodup_cons.mp hwf.2).1
                exact this (hkk ▸ List.mem_map.mpr ⟨kv, hkv, rfl⟩)
              rw [List.filter_cons_of_pos (by simp [hpath])]
              rw [ihr, hrest]
              simp [mlookup, hc]
            · rw [List.filter_cons_of_neg (by simp [hpath, hk])]
              rw [ihr]
              simp only [mlookup]
              rw [if_neg hk]
          · have hfilt : (flushPending deb ((k1, v1) :: rest) now).2 =
                (flushPending deb rest now).2 := by
              simp only [flushPending]
              rw [List.filter_cons_of_neg (by simp [hc])]
            rw [hfilt]
            by_cases hk : k1 = p
            · subst hk
              have hrest : mlookup rest k1 = none := by
                apply mlookup_eq_none
                intro kv hkv hkk
                have := (List.nodup_cons.mp hwf.2).1
                exact this (hkk ▸ List.mem_map.mpr ⟨kv, hkv, rfl⟩)
              rw [ihr, hrest]
              simp [mlookup, hc]
            · rw [ihr]
              simp only [mlookup]
              rw [if_neg hk]

theorem dispatchesFor_append (p : String) (a b : List (Nat × WEvent)) :
    dispatchesFor p (a ++ b) = dispatchesFor p a ++ dispatchesFor p b := by
  simp [dispatchesFor, List.filter_append]

theorem dispatchesFor_map_tag (p : String) (T : Nat) (l : List WEvent) :
    dispatchesFor p (l.map (fun e => (T, e))) =
      (l.filter (fun e => decide (e.path = p))).map (fun e => (T, e)) := by
  induction l with
  | nil => rfl
  | cons e rest ih =>
      simp only [List.map_cons, dispatchesFor, List.filter_cons] at *
      by_cases hp : e.path = p
      · rw [if_pos (by simp [hp]), if_pos (by simp [hp])]
        simp only [List.map_cons]
        rw [← ih]
      · rw [if_neg (by simp [hp]), if_neg (by simp [hp])]
        rw [← ih]

theorem pNotifs_mem_notify (p : String) :
    ∀ (τ : List WIn) (x : Nat × Nat), x ∈ pNotifs p τ →
      WIn.notify p x.1 x.2 ∈ τ := by
  intro τ
  induction τ with
  | nil => intro x hx; cases hx
  | cons i is ih =>
      intro x hx
      cases i with
      | notify n op t =>
          by_cases hn : n = p
          · subst hn
            simp only [pNotifs, if_pos rfl] at hx
            rcases List.mem_cons.mp hx with heq | hmem
            · subst heq
              exact List.mem_cons_self _ _
            · exact List.mem_cons_of_mem _ (ih x hmem)
          · simp only [pNotifs, if_neg hn] at hx
            exact List.mem_cons_of_mem _ (ih x hx)
      | tick t =>
          simp only [pNotifs] at hx
          exact List.mem_cons_of_mem _ (ih x hx)

theorem pNotifs_times_sublist (p : String) :
    ∀ (τ : List WIn),
      ((pNotifs p τ).map Prod.snd).Sublist (τ.map WIn.time) := by
  intro τ
  induction τ with
  | nil => exact List.Sublist.refl _
  | cons i is ih =>
      cases i with
      | notify n op t =>
          by_cases hn : n = p
          · subst hn
            simp only [pNotifs, if_pos rfl, List.map_cons]
            exact List.Sublist.cons₂ _ ih
          · simp only [pNotifs, if_neg hn, List.map_cons]
            exact List.Sublist.cons _ ih
      | tick t =>
          simp only [pNotifs, List.map_cons]
          exact List.Sublist.cons _ ih

theorem firstQualTick_cons_notify (n : String) (op t : Nat) (τ : List WIn)
    (c : Nat) : firstQualTick (.notify n op t :: τ) c = firstQualTick τ c := by
  simp [firstQualTick, List.find?_cons_of_neg, isQualTick]

theorem firstQualTick_cons_tick_qual (t : Nat) (τ : List WIn) (c : Nat)
    (h : c ≤ t) : firstQualTick (.tick t :: τ) c = some t := by
  simp [firstQualTick, List.find?_cons_of_pos, isQualTick, h, WIn.time]

theorem firstQualTick_cons_tick_nonqual (t : Nat) (τ : List WIn) (c : Nat)
    (h : ¬ c ≤ t) : firstQualTick (.tick t :: τ) c = firstQualTick τ c := by
  simp [firstQualTick, List.find?_cons_of_neg, isQualTick, h]

/-- The event a path p would be dispatched with after a trace, given that its
current pending entry is e0: it is superseded by the last later notification
for p, if any. -/
def lastNotifEvent (p : String) (τ : List WIn) (e0 : WEvent) : WEvent :=
  match (pNotifs p τ).getLast? with
  | some x => ⟨p, x.1, x.2⟩
  | none => e0

theorem lastNotifEvent_congr (p : String) (τ₁ τ₂ : List WIn) (e0 : WEvent)
    (h : pNotifs p τ₁ = pNotifs p τ₂) :
    lastNotifEvent p τ₁ e0 = lastNotifEvent p τ₂ e0 := by
  unfold lastNotifEvent
  rw [h]

theorem lastNotifEvent_cons_self (p : String) (op t : Nat) (rest : List WIn)
    (e0 : WEvent) :
    lastNotifEvent p (.notify p op t :: rest) e0 =
      lastNotifEvent p rest ⟨p, op, t⟩ := by
  unfold lastNotifEvent
  have hp : pNotifs p (.notify p op t :: rest) = (op, t) :: pNotifs p rest := by
    simp [pNotifs]
  rw [hp]
  cases hns : pNotifs p rest with
  | nil => simp
  | cons b l =>
      rw [List.getLast?_cons_cons, List.getLast?_eq_getLast (b :: l) (by simp)]

theorem pairs_snd_le_getLast :
    ∀ (ns : List (Nat × Nat)), (ns.map Prod.snd).Pairwise (· ≤ ·) →
      ∀ x ∈ ns, ∀ (h : ns ≠ []), x.2 ≤ (ns.getLast h).2 := by
  intro ns
  induction ns with
  | nil => intro _ x hx; cases hx
  | cons a rest ih =>
      intro hpw x hx hne
      cases rest with
      | nil =>
          rcases List.mem_cons.mp hx with heq | hmem
          · subst heq; simp [List.getLast]
          · cases hmem
      | cons b l =>
          rw [List.getLast_cons (by simp)]
          rw [List.map_cons, List.pairwise_cons] at hpw
          rcases List.mem_cons.mp hx with heq | hmem
          · subst heq
            exact hpw.1 _ (List.mem_map_of_mem _ (List.getLast_mem _))
          · exact ih hpw.2 x hmem (by simp)

theorem flush_disp_some (deb now : Nat) (p : String) (m : Pending)
    (e0 : WEvent) (hwf : pendingWF m) (hlk : mlookup m p = some e0) :
    ((flushPending deb m now).2.filter (fun e => decide (e.path = p))) =
      (if e0.time + deb ≤ now then [e0] else []) := by
  have h := flush_disp deb now p m hwf
  rw [hlk] at h
  exact h

theorem flush_disp_none (deb now : Nat) (p : String) (m : Pending)
    (hwf : pendingWF m) (hlk : mlookup m p = none) :
    ((flushPending deb m now).2.filter (fun e => decide (e.path = p))) = [] := by
  have h := flush_disp deb now p m hwf
  rw [hlk] at h
  exact h

theorem flush_lookup_some (deb now : Nat) (p : String) (m : Pending)
    (e0 : WEvent) (hwf : pendingWF m) (hlk : mlookup m p = some e0) :
    mlookup (flushPending deb m now).1 p =
      (if e0.time + deb ≤ now then none else some e0) := by
  have h := flush_lookup deb now p m hwf
  rw [hlk] at h
  exact h

theorem flush_lookup_none (deb now : Nat) (p : String) (m : Pending)
    (hwf : pendingWF m) (hlk : mlookup m p = none) :
    mlookup (flushPending deb m now).1 p = none := by
  have h := flush_lookup deb now p m hwf
  rw [hlk] at h
  exact h

theorem wrun_no_entry (deb : Nat) (p : String) :
    ∀ (τ : List WIn) (m : Pending), pendingWF m → mlookup m p = none →
      pNotifs p τ = [] →
      dispatchesFor p (wrun deb m τ).2 = [] ∧
        mlookup (wrun deb m τ).1 p = none := by
  intro τ
  induction τ with
  | nil =>
      intro m hwf hlk _
      exact ⟨rfl, hlk⟩
  | cons i is ih =>
      intro m hwf hlk hτ
      cases i with
      | notify n op t =>
          by_cases hn : n = p
          · subst hn
            simp [pNotifs] at hτ
          · simp only [pNotifs, if_neg hn] at hτ
            simp only [wrun]
            exact ih _ (pendingWF_handleEvent m n op t hwf)
              ((handleEvent_lookup_ne m n p op t hn).trans hlk) hτ
      | tick t =>
          simp only [pNotifs] at hτ
          simp only [wrun]
          have hl := flush_lookup_none deb t p m hwf hlk
          have ihr := ih _ (pendingWF_flushPending deb m t hwf) hl hτ
          constructor
          · rw [dispatchesFor_append, dispatchesFor_map_tag,
              flush_disp_none deb t p m hwf hlk, ihr.1]
            rfl
          · exact ihr.2

theorem wrun_entry (deb : Nat) (hdeb : 0 < deb) (p : String) :
    ∀ (τ : List WIn) (m : Pending) (e0 : WEvent),
      pendingWF m →
      mlookup m p = some e0 →
      e0.path = p →
      (τ.map WIn.time).Pairwise (· ≤ ·) →
      (∀ i ∈ τ, e0.time ≤ WIn.time i) →
      (∀ x ∈ pNotifs p τ, relevantOp x.1 = true ∧ x.2 < e0.time + deb) →
      dispatchesFor p (wrun deb m τ).2 =
        (match firstQualTick τ ((lastNotifEvent p τ e0).time + deb) with
         | some T => [(T, lastNotifEvent p τ e0)]
         | none => []) := by
  intro τ
  induction τ with
  | nil =>
      intro m e0 _ _ _ _ _ _
      rfl
  | cons i is ih =>
      intro m e0 hwf hlk hpath hmono hge hwin
      have hmono2 : (∀ a ∈ is, WIn.time i ≤ WIn.time a) ∧
          ((is.map WIn.time).Pairwise (· ≤ ·)) := by
        rw [List.map_cons, List.pairwise_cons] at hmono
        refine ⟨?_, hmono.2⟩
        intro a ha
        exact hmono.1 _ (List.mem_map_of_mem _ ha)
      cases i with
      | notify n op t =>
          by_cases hn : n = p
          · have hn2 := hn.symm
            subst hn2
            have hhead : ((op, t) : Nat × Nat) ∈ pNotifs p (.notify p op t :: is) := by
              simp [pNotifs]
            obtain ⟨hrel, _⟩ := hwin (op, t) hhead
            have he0t : e0.time ≤ t := by
              have h6 := hge _ (List.mem_cons_self (WIn.notify p op t) is)
              simpa [WIn.time] using h6
            simp only [wrun]
            rw [lastNotifEvent_cons_self, firstQualTick_cons_notify]
            apply ih _ ⟨p, op, t⟩ (pendingWF_handleEvent m p op t hwf)
              (handleEvent_lookup_self m p op t hrel) rfl hmono2.2
            · intro j hj
              exact hmono2.1 j hj
            · intro x hx
              have hx2 : x ∈ pNotifs p (.notify p op t :: is) := by
                simp only [pNotifs, if_pos rfl]
                exact List.mem_cons_of_mem _ hx
              obtain ⟨hr, hlt⟩ := hwin x hx2
              refine ⟨hr, ?_⟩
              show x.2 < WEvent.time ⟨p, op, t⟩ + deb
              simp only [WEvent.time] at hlt ⊢
              omega
          · have hpn : pNotifs p (.notify n op t :: is) = pNotifs p is := by
              simp [pNotifs, hn]
            simp only [wrun]
            rw [lastNotifEvent_congr p _ is e0 hpn, firstQualTick_cons_notify]
            apply ih _ e0 (pendingWF_handleEvent m n op t hwf)
              ((handleEvent_lookup_ne m n p op t hn).trans hlk) hpath hmono2.2
            · intro j hj
              exact hge _ (List.mem_cons_of_mem _ hj)
            · intro x hx
              exact hwin x (by rwa [hpn])
      | tick T =>
          have hpn : pNotifs p (.tick T :: is) = pNotifs p is := rfl
          have hwfl := pendingWF_flushPending deb m T hwf
          simp only [wrun]
          rw [lastNotifEvent_congr p _ is e0 hpn]
          rw [dispatchesFor_append, dispatchesFor_map_tag,
            flush_disp_some deb T p m e0 hwf hlk]
          cases hns : pNotifs p is with
          | nil =>
              have hlast : lastNotifEvent p is e0 = e0 := by
                unfold lastNotifEvent
                rw [hns]
                rfl
              rw [hlast]
              by_cases hq : e0.time + deb ≤ T
              · rw [if_pos hq]
                have hl := flush_lookup_some deb T p m e0 hwf hlk
                rw [if_pos hq] at hl
                have hrest := wrun_no_entry deb p is _ hwfl hl hns
                rw [hrest.1, firstQualTick_cons_tick_qual T is _ hq]
                simp
              · rw [if_neg hq]
                have hl := flush_lookup_some deb T p m e0 hwf hlk
                rw [if_neg hq] at hl
                have ihr := ih _ e0 hwfl hl hpath hmono2.2
                  (fun j hj => hge _ (List.mem_cons_of_mem _ hj))
                  (fun x hx => hwin x (by rwa [hpn]))
                rw [hlast] at ihr
                rw [ihr, firstQualTick_cons_tick_nonqual T is _ hq]
                simp
          | cons xh l =>
              have hxh : xh ∈ pNotifs p is := by
                rw [hns]
                exact List.mem_cons_self _ _
              have hnotif := pNotifs_mem_notify p is xh hxh
              have hTle : T ≤ xh.2 := by
                have h5 := hmono2.1 _ hnotif
                simpa [WIn.time] using h5
              have hxlt : xh.2 < e0.time + deb := (hwin xh (by rwa [hpn])).2
              have hq : ¬ (e0.time + deb ≤ T) := by omega
              rw [if_neg hq]
              have hl := flush_lookup_some deb T p m e0 hwf hlk
              rw [if_neg hq] at hl
              have ihr := ih _ e0 hwfl hl hpath hmono2.2
                (fun j hj => hge _ (List.mem_cons_of_mem _ hj))
                (fun x hx => hwin x (by rwa [hpn]))
              rw [ihr]
              have hne2 : pNotifs p is ≠ [] := by
                rw [hns]
                simp
              have hpw : ((pNotifs p is).map Prod.snd).Pairwise (· ≤ ·) :=
                List.Pairwise.sublist (pNotifs_times_sublist p is) hmono2.2
              have hgl : (pNotifs p is).getLast? =
                  some ((pNotifs p is).getLast hne2) :=
                List.getLast?_eq_getLast _ hne2
              have hlastev : lastNotifEvent p is e0 =
                  ⟨p, ((pNotifs p is).getLast hne2).1,
                    ((pNotifs p is).getLast hne2).2⟩ := by
                unfold lastNotifEvent
                rw [hgl]
              have hsnd : xh.2 ≤ ((pNotifs p is).getLast hne2).2 :=
                pairs_snd_le_getLast _ hpw xh hxh hne2
              have hq2 : ¬ ((lastNotifEvent p is e0).time + deb ≤ T) := by
                rw [hlastev]
                show ¬ (((pNotifs p is).getLast hne2).2 + deb ≤ T)
                omega
              rw [firstQualTick_cons_tick_nonqual T is _ hq2]
              simp

theorem wrun_pre (deb : Nat) (hdeb : 0 < deb) (p : String) :
    ∀ (τ : List WIn) (m : Pending),
      pendingWF m → mlookup m p = none →
      (τ.map WIn.time).Pairwise (· ≤ ·) →
      (∀ x ∈ pNotifs p τ, relevantOp x.1 = true) →
      (∀ x ∈ pNotifs p τ, ∀ y ∈ (pNotifs p τ).head?, x.2 < y.2 + deb) →
      dispatchesFor p (wrun deb m τ).2 =
        (match (pNotifs p τ).getLast? with
         | some xN =>
             (match firstQualTick τ (xN.2 + deb) with
              | some T => [(T, ⟨p, xN.1, xN.2⟩)]
              | none => [])
         | none => []) := by
  intro τ
  induction τ with
  | nil =>
      intro m _ _ _ _ _
      rfl
  | cons i is ih =>
      intro m hwf hlk hmono hrel hhd
      have hmono2 : (∀ a ∈ is, WIn.time i ≤ WIn.time a) ∧
          ((is.map WIn.time).Pairwise (· ≤ ·)) := by
        rw [List.map_cons, List.pairwise_cons] at hmono
        refine ⟨?_, hmono.2⟩
        intro a ha
        exact hmono.1 _ (List.mem_map_of_mem _ ha)
      cases i with
      | notify n op t =>
          by_cases hn : n = p
          · have hn2 := hn.symm
            subst hn2
            have hp : pNotifs p (.notify p op t :: is) =
                (op, t) :: pNotifs p is := by
              simp [pNotifs]
            have hrelh : relevantOp op = true :=
              hrel (op, t) (by rw [hp]; exact List.mem_cons_self _ _)
            have hlk2 : mlookup (handleEvent m p op t) p = some ⟨p, op, t⟩ :=
              handleEvent_lookup_self m p op t hrelh
            have hwf2 := pendingWF_handleEvent m p op t hwf
            have hmain := wrun_entry deb hdeb p is _ ⟨p, op, t⟩ hwf2 hlk2 rfl
              hmono2.2 (fun j hj => hmono2.1 j hj) ?hwin2
            case hwin2 =>
              intro x hx
              refine ⟨hrel x (by rw [hp]; exact List.mem_cons_of_mem _ hx), ?_⟩
              exact hhd x (by rw [hp]; exact List.mem_cons_of_mem _ hx)
                (op, t) (by rw [hp]; simp)
            simp only [wrun]
            rw [hmain, hp]
            cases hns : pNotifs p is with
            | nil =>
                have hlast : lastNotifEvent p is ⟨p, op, t⟩ = ⟨p, op, t⟩ := by
                  unfold lastNotifEvent
                  rw [hns]
                  rfl
                rw [hlast]
                simp [firstQualTick_cons_notify]
            | cons b l =>
                have hne2 : (b :: l) ≠ ([] : List (Nat × Nat)) := by simp
                have hgl := List.getLast?_eq_getLast (b :: l) hne2
                have hlast : lastNotifEvent p is ⟨p, op, t⟩ =
                    ⟨p, ((b :: l).getLast hne2).1, ((b :: l).getLast hne2).2⟩ := by
                  unfold lastNotifEvent
                  rw [hns, hgl]
                rw [hlast]
                simp [List.getLast?_cons_cons, hgl, firstQualTick_cons_notify]
          · have hpn : pNotifs p (.notify n op t :: is) = pNotifs p is := by
              simp [pNotifs, hn]
            simp only [wrun]
            have ih2 := ih _ (pendingWF_handleEvent m n op t hwf)
              ((handleEvent_lookup_ne m n p op t hn).trans hlk) hmono2.2
              (fun x hx => hrel x (by rwa [hpn]))
              (fun x hx y hy => hhd x (by rwa [hpn]) y (by rwa [hpn]))
            rw [ih2, hpn]
            cases hgl : (pNotifs p is).getLast? with
            | none => rfl
            | some xN => simp [firstQualTick_cons_notify]
      | tick T =>
          have hpn : pNotifs p (.tick T :: is) = pNotifs p is := rfl
          simp only [wrun]
          rw [dispatchesFor_append, dispatchesFor_map_tag,
            flush_disp_none deb T p m hwf hlk]
          have hwfl := pendingWF_flushPending deb m T hwf
          have hl := flush_lookup_none deb T p m hwf hlk
          have ihr := ih _ hwfl hl hmono2.2
            (fun x hx => hrel x (by rwa [hpn]))
            (fun x hx y hy => hhd x (by rwa [hpn]) y (by rwa [hpn]))
          rw [ihr, hpn]
          cases hgl : (pNotifs p is).getLast? with
          | none => simp
          | some xN =>
              have hne2 : pNotifs p is ≠ [] := by
                intro hcon
                rw [hcon] at hgl
                simp at hgl
              have hxeq : xN = (pNotifs p is).getLast hne2 := by
                have h7 := List.getLast?_eq_getLast (pNotifs p is) hne2
                rw [hgl] at h7
                exact Option.some.inj h7
              have hmem : xN ∈ pNotifs p is := by
                rw [hxeq]
                exact List.getLast_mem hne2
              have hnotif := pNotifs_mem_notify p is xN hmem
              have hTle : T ≤ xN.2 := by
                have h5 := hmono2.1 _ hnotif
                simpa [WIn.time] using h5
              have hq2 : ¬ (xN.2 + deb ≤ T) := by omega
              simp only [List.map_nil, List.nil_append]
              simp [firstQualTick_cons_tick_nonqual T is _ hq2]

theorem find_qual_time_min (c : Nat) :
    ∀ (τ : List WIn), (τ.map WIn.time).Pairwise (· ≤ ·) →
      ∀ (j : WIn), τ.find? (isQualTick c) = some j →
      ∀ i ∈ τ, isQualTick c i = true → WIn.time j ≤ WIn.time i := by
  intro τ
  induction τ with
  | nil =>
      intro _ j hj
      simp at hj
  | cons a rest ih =>
      intro hmono j hj i hi hq
      have hmono2 : (∀ b ∈ rest, WIn.time a ≤ WIn.time b) ∧
          ((rest.map WIn.time).Pairwise (· ≤ ·)) := by
        rw [List.map_cons, List.pairwise_cons] at hmono
        refine ⟨?_, hmono.2⟩
        intro b hb
        exact hmono.1 _ (List.mem_map_of_mem _ hb)
      by_cases hqa : isQualTick c a = true
      · rw [List.find?_cons_of_pos _ hqa] at hj
        cases hj
        rcases List.mem_cons.mp hi with heq | hmem
        · subst heq
          exact le_refl _
        · exact hmono2.1 i hmem
      · rw [List.find?_cons_of_neg _ (by simpa using hqa)] at hj
        rcases List.mem_cons.mp hi with heq | hmem
        · subst heq
          exact absurd hq hqa
        · exact ih hmono2.2 j hj i hmem hq

theorem coalesce_main (deb : Nat) (hdeb : 0 < deb) (p : String) (τ : List WIn)
    (hmono : (τ.map WIn.time).Pairwise (· ≤ ·))
    (hne : pNotifs p τ ≠ [])
    (hrel : ∀ x ∈ pNotifs p τ, relevantOp x.1 = true)
    (hwin : ((pNotifs p τ).getLast hne).2 < ((pNotifs p τ).head hne).2 + deb)
    (T : Nat)
    (hT : firstQualTick τ (((pNotifs p τ).getLast hne).2 + deb) = some T) :
    dispatchesFor p (wrun deb [] τ).2 =
      [(T, ⟨p, ((pNotifs p τ).getLast hne).1,
        ((pNotifs p τ).getLast hne).2⟩)] := by
  have hpw : ((pNotifs p τ).map Prod.snd).Pairwise (· ≤ ·) :=
    List.Pairwise.sublist (pNotifs_times_sublist p τ) hmono
  have hhd : ∀ x ∈ pNotifs p τ, ∀ y ∈ (pNotifs p τ).head?, x.2 < y.2 + deb := by
    intro x hx y hy
    rw [List.head?_eq_head hne] at hy
    cases hy
    have hle := pairs_snd_le_getLast _ hpw x hx hne
    omega
  have hpre := wrun_pre deb hdeb p τ [] pendingWF_nil rfl hmono hrel hhd
  rw [List.getLast?_eq_getLast _ hne] at hpre
  rw [hpre]
  simp [hT]

theorem isQualTick_le (c : Nat) (i : WIn) (h : isQualTick c i = true) :
    c ≤ WIn.time i := by
  cases i with
  | notify n op t => simp [isQualTick] at h
  | tick t => simpa [isQualTick, WIn.time] using h

/-- C1: for every path p and every finite monotone-time input trace containing
N >= 1 raw notifications on p, all of kind Create, Write or Rename, all within
one debounce window, the Watcher dispatches exactly one event for p, at the
first flush tick at least the debounce duration after the last notification;
notifications of any other kind leave the pending buffer unchanged; and after
any trace the pending buffer holds at most one entry per path. -/
theorem watcher_debounce_coalescing
    (deb : Nat) (hdeb : 0 < deb) (p : String) (τ : List WIn)
    (hmono : (τ.map WIn.time).Pairwise (· ≤ ·))
    (hne : pNotifs p τ ≠ [])
    (hrel : ∀ x ∈ pNotifs p τ, relevantOp x.1 = true)
    (hwin : ((pNotifs p τ).getLast hne).2 < ((pNotifs p τ).head hne).2 + deb)
    (T : Nat)
    (hT : firstQualTick τ (((pNotifs p τ).getLast hne).2 + deb) = some T) :
    dispatchesFor p (wrun deb [] τ).2 =
      [(T, ⟨p, ((pNotifs p τ).getLast hne).1,
        ((pNotifs p τ).getLast hne).2⟩)] ∧
    (∀ (pend : Pending) (n : String) (op t : Nat),
        relevantOp op = false → handleEvent pend n op t = pend) ∧
    (∀ σ : List WIn, (mkeys (wrun deb [] σ).1).Nodup) :=
  ⟨coalesce_main deb hdeb p τ hmono hne hrel hwin T hT,
   fun pend n op t h => handleEvent_irrelevant pend n op t h,
   fun σ => (pendingWF_wrun deb σ [] pendingWF_nil).2⟩

/-- Witness for C1 at a concrete trace: two Write notifications on path a at
times 0 and 30 (debounce 100), flush ticks at 50, 130, 180: exactly one
dispatch, at tick 130, carrying the last notification. -/
theorem watcher_debounce_coalescing_witness :
    dispatchesFor "a" (wrun 100 []
      [WIn.notify "a" 2 0, WIn.notify "a" 2 30, WIn.tick 50, WIn.tick 130,
       WIn.tick 180]).2 = [(130, ⟨"a", 2, 30⟩)] := by
  have h := watcher_debounce_coalescing 100 (by decide) "a"
    [WIn.notify "a" 2 0, WIn.notify "a" 2 30, WIn.tick 50, WIn.tick 130,
     WIn.tick 180]
    (by decide) (by decide) (by decide) (by decide) 130 (by decide)
  exact h.1

/-- C5 counterexample: debounce 100, flush interval 50; notifications on path
a at times 0 and 90 (within one debounce window), flush ticks every 50 units.
The single dispatch happens at time 200, strictly later than
first-notification + debounce + one flush interval = 150, refuting the
claimed upper bound relative to the FIRST contributing notification (the
last-write-wins buffer restarts the debounce clock at the LAST one). -/
theorem debounce_upper_bound_cex :
    dispatchesFor "a" (wrun 100 []
      [WIn.notify "a" 2 0, WIn.tick 50, WIn.notify "a" 2 90, WIn.tick 100,
       WIn.tick 150, WIn.tick 200, WIn.tick 250]).2 = [(200, ⟨"a", 2, 90⟩)] ∧
    (0 : Nat) + 100 + 50 < 200 := by
  constructor
  · decide
  · decide

/-- C5 (amended): the dispatched event for p occurs no earlier than debounce
after the first contributing notification, and no later than debounce plus
one flush interval after the LAST contributing notification (the code resets
the debounce clock on every overwrite), provided the ticker supplies a tick
within one flush interval after last + debounce. -/
theorem debounce_timing_bounds
    (deb flushI : Nat) (hdeb : 0 < deb) (p : String) (τ : List WIn)
    (hmono : (τ.map WIn.time).Pairwise (· ≤ ·))
    (hne : pNotifs p τ ≠ [])
    (hrel : ∀ x ∈ pNotifs p τ, relevantOp x.1 = true)
    (hwin : ((pNotifs p τ).getLast hne).2 < ((pNotifs p τ).head hne).2 + deb)
    (j : WIn) (hjmem : j ∈ τ)
    (hjq : isQualTick (((pNotifs p τ).getLast hne).2 + deb) j = true)
    (hjub : WIn.time j ≤ ((pNotifs p τ).getLast hne).2 + deb + flushI) :
    ∃ T,
      dispatchesFor p (wrun deb [] τ).2 =
        [(T, ⟨p, ((pNotifs p τ).getLast hne).1,
          ((pNotifs p τ).getLast hne).2⟩)] ∧
      ((pNotifs p τ).head hne).2 + deb ≤ T ∧
      T ≤ ((pNotifs p τ).getLast hne).2 + deb + flushI := by
  have hsome : (τ.find? (isQualTick (((pNotifs p τ).getLast hne).2 + deb))).isSome :=
    List.find?_isSome.mpr ⟨j, hjmem, hjq⟩
  obtain ⟨j0, hj0⟩ := Option.isSome_iff_exists.mp hsome
  have hQ : firstQualTick τ (((pNotifs p τ).getLast hne).2 + deb) =
      some (WIn.time j0) := by
    unfold firstQualTick
    rw [hj0]
    rfl
  refine ⟨WIn.time j0, coalesce_main deb hdeb p τ hmono hne hrel hwin _ hQ,
    ?_, ?_⟩
  · have hq0 := List.find?_some hj0
    have hc := isQualTick_le _ _ hq0
    have hpw := List.Pairwise.sublist (pNotifs_times_sublist p τ) hmono
    have hhd := pairs_snd_le_getLast _ hpw _ (List.head_mem hne) hne
    omega
  · have hmin := find_qual_time_min _ τ hmono j0 hj0 j hjmem hjq
    omega

/-- Witness for C5 (amended) at the concrete counterexample trace: the single
dispatch lands at some T with 0 + 100 <= T <= 90 + 100 + 50. -/
theorem debounce_timing_bounds_witness :
    ∃ T,
      dispatchesFor "a" (wrun 100 []
        [WIn.notify "a" 2 0, WIn.tick 50, WIn.notify "a" 2 90, WIn.tick 100,
         WIn.tick 150, WIn.tick 200, WIn.tick 250]).2 = [(T, ⟨"a", 2, 90⟩)] ∧
      (100 : Nat) ≤ T ∧ T ≤ 240 := by
  have h := debounce_timing_bounds 100 50 (by decide) "a"
    [WIn.notify "a" 2 0, WIn.tick 50, WIn.notify "a" 2 90, WIn.tick 100,
     WIn.tick 150, WIn.tick 200, WIn.tick 250]
    (by decide) (by decide) (by decide) (by decide)
    (WIn.tick 200) (by decide) (by decide) (by decide)
  exact h

/-! Run loops: Poller.Run (poller.go) and Watcher.Run (watcher.go). -/

/-- Result of a Run loop: still blocked waiting for input (running), returned
ctx.Err() on cancellation, or returned nil. -/
inductive RunRes where
  | running
  | retCtxErr
  | retNil
  deriving DecidableEq, Repr

/-- Inputs to the Poller.Run select loop: a ticker tick or cancellation. -/
inductive PIn where
  | tick
  | ctxDone
  deriving DecidableEq, Repr

/-- Number of ticks in a Poller.Run input list. -/
def countTicksP : List PIn → Nat
  | [] => 0
  | .tick :: rest => countTicksP rest + 1
  | .ctxDone :: rest => countTicksP rest

/-- Observable outcome of Poller.Run: how many Scan calls ran, how many scan
errors were logged, and how the loop ended. -/
structure PRunState where
  scans : Nat
  scanErrLogs : Nat
  res : RunRes
  deriving DecidableEq, Repr

/-- The for-select loop of Poller.Run: cancellation returns ctx.Err(); each
tick runs Scan once and logs (never propagates) its error; scanErr k tells
whether the k-th Scan call reported an error. -/
def pollerLoop (scanErr : Nat → Bool) (scans logs : Nat) : List PIn → PRunState
  | [] => ⟨scans, logs, .running⟩
  | .ctxDone :: _ => ⟨scans, logs, .retCtxErr⟩
  | .tick :: rest =>
      pollerLoop scanErr (scans + 1) (logs + if scanErr scans then 1 else 0) rest

/-- Poller.Run: one immediate Scan (its error only logged), then the loop. -/
def pollerRun (scanErr : Nat → Bool) (ins : List PIn) : PRunState :=
  pollerLoop scanErr 1 (if scanErr 0 then 1 else 0) ins

/-- Inputs to the Watcher.Run select loop: a notification from the Events
channel, closure of the Events channel, an error from the Errors channel,
closure of the Errors channel, a flush tick, or cancellation. -/
inductive WRIn where
  | ev (name : String) (op : Nat) (t : Nat)
  | evClosed
  | errMsg
  | errClosed
  | tick (t : Nat)
  | ctxDone
  deriving DecidableEq, Repr

/-- Observable outcome of Watcher.Run. -/
structure WRunState where
  pending : Pending
  disp : List (Nat × WEvent)
  errLogs : Nat
  res : RunRes
  deriving DecidableEq, Repr

/-- The for-select loop of Watcher.Run: cancellation returns ctx.Err(); a
closed Events or Errors channel returns nil; a received error is logged and
the loop continues; notifications go to handleEvent; ticks run flushPending
and dispatch the batch. -/
def watcherRun (deb : Nat) (pending : Pending) (disp : List (Nat × WEvent))
    (errLogs : Nat) : List WRIn → WRunState
  | [] => ⟨pending, disp, errLogs, .running⟩
  | .ctxDone :: _ => ⟨pending, disp, errLogs, .retCtxErr⟩
  | .ev n op t :: rest => watcherRun deb (handleEvent pending n op t) disp errLogs rest
  | .evClosed :: _ => ⟨pending, disp, errLogs, .retNil⟩
  | .errMsg :: rest => watcherRun deb pending disp (errLogs + 1) rest
  | .errClosed :: _ => ⟨pending, disp, errLogs, .retNil⟩
  | .tick t :: rest =>
      watcherRun deb (flushPending deb pending t).1
        (disp ++ ((flushPending deb pending t).2.map (fun e => (t, e)))) errLogs rest

theorem pollerLoop_no_done (scanErr : Nat → Bool) :
    ∀ (ins : List PIn) (scans logs : Nat), PIn.ctxDone ∉ ins →
      (pollerLoop scanErr scans logs ins).res = RunRes.running ∧
      (pollerLoop scanErr scans logs ins).scans = scans + countTicksP ins := by
  intro ins
  induction ins with
  | nil => intro scans logs _; exact ⟨rfl, by simp [pollerLoop, countTicksP]⟩
  | cons i rest ih =>
      intro scans logs hnd
      cases i with
      | ctxDone => exact absurd (List.mem_cons_self _ _) hnd
      | tick =>
          have h := ih (scans + 1) (logs + if scanErr scans then 1 else 0)
            (fun hc => hnd (List.mem_cons_of_mem _ hc))
          refine ⟨h.1, ?_⟩
          rw [show pollerLoop scanErr scans logs (PIn.tick :: rest) =
            pollerLoop scanErr (scans + 1)
              (logs + if scanErr scans then 1 else 0) rest from rfl]
          rw [h.2]
          simp [countTicksP]
          omega

theorem pollerLoop_done (scanErr : Nat → Bool) :
    ∀ (pre : List PIn) (post : List PIn) (scans logs : Nat),
      PIn.ctxDone ∉ pre →
      (pollerLoop scanErr scans logs (pre ++ PIn.ctxDone :: post)).res =
        RunRes.retCtxErr ∧
      (pollerLoop scanErr scans logs (pre ++ PIn.ctxDone :: post)).scans =
        scans + countTicksP pre := by
  intro pre
  induction pre with
  | nil =>
      intro post scans logs _
      exact ⟨rfl, by simp [pollerLoop, countTicksP]⟩
  | cons i rest ih =>
      intro post scans logs hnd
      cases i with
      | ctxDone => exact absurd (List.mem_cons_self _ _) hnd
      | tick =>
          have h := ih post (scans + 1) (logs + if scanErr scans then 1 else 0)
            (fun hc => hnd (List.mem_cons_of_mem _ hc))
          refine ⟨h.1, ?_⟩
          rw [show pollerLoop scanErr scans logs
              ((PIn.tick :: rest) ++ PIn.ctxDone :: post) =
            pollerLoop scanErr (scans + 1)
              (logs + if scanErr scans then 1 else 0)
              (rest ++ PIn.ctxDone :: post) from rfl]
          rw [h.2]
          simp [countTicksP]
          omega

theorem watcherRun_no_term (deb : Nat) :
    ∀ (ins : List WRIn) (pending : Pending) (disp : List (Nat × WEvent))
      (logs : Nat),
      (∀ i ∈ ins, i ≠ WRIn.evClosed ∧ i ≠ WRIn.errClosed ∧ i ≠ WRIn.ctxDone) →
      (watcherRun deb pending disp logs ins).res = RunRes.running := by
  intro ins
  induction ins with
  | nil => intro _ _ _ _; rfl
  | cons i rest ih =>
      intro pending disp logs hok
      have hi := hok i (List.mem_cons_self _ _)
      have hrest := fun j hj => hok j (List.mem_cons_of_mem _ hj)
      cases i with
      | ev n op t => exact ih _ _ _ hrest
      | evClosed => exact absurd rfl hi.1
      | errMsg => exact ih _ _ _ hrest
      | errClosed => exact absurd rfl hi.2.1
      | tick t => exact ih _ _ _ hrest
      | ctxDone => exact absurd rfl hi.2.2

theorem watcherRun_done (deb : Nat) :
    ∀ (pre post : List WRIn) (pending : Pending) (disp : List (Nat × WEvent))
      (logs : Nat),
      (∀ i ∈ pre, i ≠ WRIn.evClosed ∧ i ≠ WRIn.errClosed ∧ i ≠ WRIn.ctxDone) →
      (watcherRun deb pending disp logs (pre ++ WRIn.ctxDone :: post)).res =
        RunRes.retCtxErr := by
  intro pre
  induction pre with
  | nil => intro _ _ _ _ _; rfl
  | cons i rest ih =>
      intro post pending disp logs hok
      have hi := hok i (List.mem_cons_self _ _)
      have hrest := fun j hj => hok j (List.mem_cons_of_mem _ hj)
      cases i with
      | ev n op t => exact ih _ _ _ _ hrest
      | evClosed => exact absurd rfl hi.1
      | errMsg => exact ih _ _ _ _ hrest
      | errClosed => exact absurd rfl hi.2.1
      | tick t => exact ih _ _ _ _ hrest
      | ctxDone => exact absurd rfl hi.2.2

/-- C8 counterexample: Watcher.Run terminates with a nil return, not the
cancellation error, when the notification Events channel closes, with no
cancellation anywhere in the input trace — so "Poller.Run and Watcher.Run
each terminate only on cancellation and return the cancellation error" is
false as stated for Watcher.Run. -/
theorem watcher_run_close_cex :
    (watcherRun 800 [] [] 0 [WRIn.evClosed]).res = RunRes.retNil ∧
    RunRes.retNil ≠ RunRes.retCtxErr ∧
    WRIn.ctxDone ∉ [WRIn.evClosed] := by
  refine ⟨rfl, by decide, by decide⟩

/-- C8 (amended): Poller.Run terminates only on cancellation and returns the
cancellation error, having performed one immediate Scan plus one per tick
(scan errors only logged, never propagated: the outcome is the same for every
scan-error pattern); Watcher.Run never terminates on a notification-source
error and returns the cancellation error on cancellation, but additionally
returns nil if the Events or Errors channel is closed (hence the
closed-channel exception to "terminates only on cancellation"). -/
theorem run_termination_behavior :
    (∀ (scanErr : Nat → Bool) (ins : List PIn), PIn.ctxDone ∉ ins →
        (pollerRun scanErr ins).res = RunRes.running ∧
        (pollerRun scanErr ins).scans = 1 + countTicksP ins) ∧
    (∀ (scanErr : Nat → Bool) (pre post : List PIn), PIn.ctxDone ∉ pre →
        (pollerRun scanErr (pre ++ PIn.ctxDone :: post)).res =
          RunRes.retCtxErr ∧
        (pollerRun scanErr (pre ++ PIn.ctxDone :: post)).scans =
          1 + countTicksP pre) ∧
    (∀ (deb : Nat) (ins : List WRIn),
        (∀ i ∈ ins, i ≠ WRIn.evClosed ∧ i ≠ WRIn.errClosed ∧ i ≠ WRIn.ctxDone) →
        (watcherRun deb [] [] 0 ins).res = RunRes.running) ∧
    (∀ (deb : Nat) (pre post : List WRIn),
        (∀ i ∈ pre, i ≠ WRIn.evClosed ∧ i ≠ WRIn.errClosed ∧ i ≠ WRIn.ctxDone) →
        (watcherRun deb [] [] 0 (pre ++ WRIn.ctxDone :: post)).res =
          RunRes.retCtxErr) :=
  ⟨fun scanErr ins h => pollerLoop_no_done scanErr ins 1 _ h,
   fun scanErr pre post h => pollerLoop_done scanErr pre post 1 _ h,
   fun deb ins h => watcherRun_no_term deb ins [] [] 0 h,
   fun deb pre post h => watcherRun_done deb pre post [] [] 0 h⟩

/-- Witness for C8 (amended) on concrete traces: two ticks and no
cancellation leave the poller loop running after three scans; a tick then
cancellation returns the cancellation error after two scans; the watcher
loop survives a source error and a tick, and returns the cancellation error
when cancellation arrives after a source error. -/
theorem run_termination_behavior_witness :
    (pollerRun (fun _ => false) [PIn.tick, PIn.tick]).res = RunRes.running ∧
    (pollerRun (fun _ => false) [PIn.tick, PIn.tick]).scans = 3 ∧
    (pollerRun (fun _ => false) ([PIn.tick] ++ PIn.ctxDone :: [])).res =
      RunRes.retCtxErr ∧
    (watcherRun 800 [] [] 0 [WRIn.errMsg, WRIn.tick 5]).res = RunRes.running ∧
    (watcherRun 800 [] [] 0 ([WRIn.errMsg] ++ WRIn.ctxDone :: [])).res =
      RunRes.retCtxErr := by
  have h := run_termination_behavior
  exact ⟨(h.1 (fun _ => false) [PIn.tick, PIn.tick] (by decide)).1,
    (h.1 (fun _ => false) [PIn.tick, PIn.tick] (by decide)).2,
    (h.2.1 (fun _ => false) [PIn.tick] [] (by decide)).1,
    h.2.2.1 800 [WRIn.errMsg, WRIn.tick 5] (by decide),
    h.2.2.2 800 [WRIn.errMsg] [] (by decide)⟩

/-! Incremental scanner: Poller.Scan (internal/poller/poller.go) and
Watcher.AddRecursive (internal/watcher/watcher.go). -/

/-- A filesystem tree: regular files and directories, with base names and
modification times. -/
inductive FSTree where
  | file (name : String) (mtime : Nat) : FSTree
  | dir (name : String) (mtime : Nat) (children : List FSTree) : FSTree

/-- Base name of the entry a tree node stands for. -/
def FSTree.name : FSTree → String
  | .file n _ => n
  | .dir n _ _ => n

/-- fs.FileInfo as the Handler sees it: base name, directory flag, mod time. -/
structure FileInfo where
  name : String
  isDir : Bool
  modTime : Nat
  deriving DecidableEq, Repr

/-- fs.DirEntry as the walk callback sees it; info is none when d.Info()
fails. -/
structure DEntry where
  name : String
  isDir : Bool
  info : Option FileInfo
  deriving DecidableEq, Repr

/-- The Handler type of poller.go: nil (none), the ErrSkipDir sentinel, or
any other error. -/
abbrev Handler := String → FileInfo → Option GoErr

/-- Mutable scan state the walk callback touches: the ordered Handler
invocation list, the visitedDirs set (in visit order), and the dirModTime
fingerprint table. -/
structure CbState where
  calls : List (String × FileInfo)
  visited : List String
  dirMod : List (String × Nat)
  deriving DecidableEq, Repr

/-- Poller.shouldSkipDir: a fingerprint exists for the path and equals the
current modification time. -/
def shouldSkipDir (dirMod : List (String × Nat)) (path : String)
    (modTime : Nat) : Bool :=
  match mlookup dirMod path with
  | some prev => decide (modTime = prev)
  | none => false

/-- strings.HasPrefix(name, ".") as used by the skip rule: the first
character of the name is a dot. -/
def startsWithDot (s : String) : Bool :=
  match s.data with
  | c :: _ => decide (c = '.')
  | [] => false

/-- The static name-based prune rule, identical in Scan and AddRecursive:
skipDirs[name] || (strings.HasPrefix(name, ".") && name != "."). -/
def skipName (skipDirs : List String) (name : String) : Bool :=
  skipDirs.contains name || (startsWithDot name && decide (name ≠ "."))

/-- The default skip set NewPoller installs. -/
def defaultSkipDirs : List String :=
  [".git", ".dropbox.cache", "node_modules", ".svn", ".hg"]

/-- The hardcoded skip list in watcher.go. -/
def watcherSkipDirs : List String :=
  ["node_modules", ".git", ".dropbox.cache", ".svn", ".hg"]

/-- filepath.Join for already-clean segments. -/
def pathJoin (a b : String) : String := a ++ "/" ++ b

/-- The WalkDir callback of Poller.Scan, mirrored branch by branch: a walk
error is logged and absorbed; for a directory the path first goes into
visitedDirs, a d.Info() failure is absorbed, the Handler runs before any
prune decision and its ErrSkipDir becomes filepath.SkipDir (any other
Handler error is logged and ignored), the static name rule prunes next, and
only then — and only when a previous scan exists — the fingerprint fast path
prunes (shouldSkipDir) or records (updateDirModTime); for a regular file the
mod-time fast path may skip the Handler, whose error is absorbed. Returns
the updated state and the Go error value handed back to WalkDir. -/
def walkCallback (h : Handler) (skipDirs : List String) (lastScan : Option Nat)
    (path : String) (walkErr : Option GoErr) (d : DEntry) (st : CbState) :
    CbState × Option GoErr :=
  if walkErr.isSome then
    (st, none)
  else if d.isDir then
    let st1 := { st with visited := st.visited ++ [path] }
    match d.info with
    | none => (st1, none)
    | some info =>
      let st2 := { st1 with calls := st1.calls ++ [(path, info)] }
      match h path info with
      | some GoErr.skipDir => (st2, some GoErr.skipDir)
      | _ =>
        if skipName skipDirs d.name then (st2, some GoErr.skipDir)
        else
          match lastScan with
          | none => (st2, none)
          | some _ =>
            if shouldSkipDir st2.dirMod path info.modTime then
              (st2, some GoErr.skipDir)
            else
              ({ st2 with dirMod := mapInsert st2.dirMod path info.modTime },
                none)
  else
    match d.info with
    | none => (st, none)
    | some info =>
      match lastScan with
      | some ls =>
          if info.modTime < ls then (st, none)
          else ({ st with calls := st.calls ++ [(path, info)] }, none)
      | none => ({ st with calls := st.calls ++ [(path, info)] }, none)

/-- Signal a subtree walk passes to its caller, encoding filepath.WalkDir
control flow: continue with the next sibling, skip the remaining siblings
(SkipDir returned for a non-directory), or abort the whole walk with an
error. -/
inductive WSig where
  | cont
  | skipSiblings
  | abort (e : GoErr)
  deriving DecidableEq, Repr

/-- The DirEntry for a tree node; iErr injects d.Info() failures per path. -/
def dentryOf (iErr : String → Bool) (path : String) : FSTree → DEntry
  | .file n m => ⟨n, false, if iErr path then none else some ⟨n, false, m⟩⟩
  | .dir n m _ => ⟨n, true, if iErr path then none else some ⟨n, true, m⟩⟩

mutual

/-- filepath.WalkDir of Poller.Scan over one subtree: run the callback on
the node, then follow its result — SkipDir on a directory prunes it, SkipDir
on a file skips its remaining siblings, any other error aborts the walk, and
nil descends (directories) or continues (files). wErr injects per-path walk
errors: the callback sees them and the walk does not descend there. -/
def walkET (h : Handler) (skipDirs : List String) (lastScan : Option Nat)
    (wErr : String → Option GoErr) (iErr : String → Bool)
    (path : String) (t : FSTree) (st : CbState) : CbState × WSig :=
  match t with
  | .file name mtime =>
      match walkCallback h skipDirs lastScan path (wErr path)
        (dentryOf iErr path (.file name mtime)) st with
      | (st1, none) => (st1, .cont)
      | (st1, some GoErr.skipDir) => (st1, .skipSiblings)
      | (st1, some e) => (st1, .abort e)
  | .dir name mtime children =>
      match walkCallback h skipDirs lastScan path (wErr path)
        (dentryOf iErr path (.dir name mtime children)) st with
      | (st1, some GoErr.skipDir) => (st1, .cont)
      | (st1, some e) => (st1, .abort e)
      | (st1, none) =>
          if (wErr path).isSome then (st1, .cont)
          else walkChildren h skipDirs lastScan wErr iErr path children st1

/-- Walk the children of a directory in order, honoring the signals. -/
def walkChildren (h : Handler) (skipDirs : List String) (lastScan : Option Nat)
    (wErr : String → Option GoErr) (iErr : String → Bool)
    (base : String) (ts : List FSTree) (st : CbState) : CbState × WSig :=
  match ts with
  | [] => (st, .cont)
  | t :: rest =>
      match walkET h skipDirs lastScan wErr iErr (pathJoin base t.name) t st with
      | (st1, .cont) => walkChildren h skipDirs lastScan wErr iErr base rest st1
      | (st1, .skipSiblings) => (st1, .cont)
      | (st1, .abort e) => (st1, .abort e)

end

/-- Value of the file arm of walkET as a function of the callback result. -/
def sigOfFileOut (st1 : CbState) : Option GoErr → CbState × WSig
  | none => (st1, .cont)
  | some GoErr.skipDir => (st1, .skipSiblings)
  | some e => (st1, .abort e)

/-- Value of the directory arm of walkET as a function of the callback
result. -/
def sigOfDirOut (h : Handler) (sk : List String) (ls : Option Nat)
    (wErr : String → Option GoErr) (iErr : String → Bool)
    (path : String) (children : List FSTree) (st1 : CbState) :
    Option GoErr → CbState × WSig
  | some GoErr.skipDir => (st1, .cont)
  | some e => (st1, .abort e)
  | none =>
      if (wErr path).isSome then (st1, .cont)
      else walkChildren h sk ls wErr iErr path children st1

/-- Continuation of walkChildren as a function of the head signal. -/
def contOfSig (h : Handler) (sk : List String) (ls : Option Nat)
    (wErr : String → Option GoErr) (iErr : String → Bool)
    (base : String) (rest : List FSTree) (st1 : CbState) :
    WSig → CbState × WSig
  | .cont => walkChildren h sk ls wErr iErr base rest st1
  | .skipSiblings => (st1, .cont)
  | .abort e => (st1, .abort e)

theorem walkET_file_eq (h : Handler) (sk : List String) (ls : Option Nat)
    (wErr : String → Option GoErr) (iErr : String → Bool)
    (path name : String) (mtime : Nat) (st st1 : CbState) (out : Option GoErr)
    (hcb : walkCallback h sk ls path (wErr path)
      (dentryOf iErr path (.file name mtime)) st = (st1, out)) :
    walkET h sk ls wErr iErr path (.file name mtime) st =
      sigOfFileOut st1 out := by
  simp only [walkET]
  rw [hcb]
  cases out with
  | none => rfl
  | some e => cases e <;> rfl

theorem walkET_dir_eq (h : Handler) (sk : List String) (ls : Option Nat)
    (wErr : String → Option GoErr) (iErr : String → Bool)
    (path name : String) (mtime : Nat) (children : List FSTree)
    (st st1 : CbState) (out : Option GoErr)
    (hcb : walkCallback h sk ls path (wErr path)
      (dentryOf iErr path (.dir name mtime children)) st = (st1, out)) :
    walkET h sk ls wErr iErr path (.dir name mtime children) st =
      sigOfDirOut h sk ls wErr iErr path children st1 out := by
  simp only [walkET]
  rw [hcb]
  cases out with
  | none => rfl
  | some e => cases e <;> rfl

theorem walkChildren_cons_eq (h : Handler) (sk : List String) (ls : Option Nat)
    (wErr : String → Option GoErr) (iErr : String → Bool)
    (base : String) (t : FSTree) (rest : List FSTree) (st st1 : CbState)
    (sig : WSig)
    (hw : walkET h sk ls wErr iErr (pathJoin base t.name) t st = (st1, sig)) :
    walkChildren h sk ls wErr iErr base (t :: rest) st =
      contOfSig h sk ls wErr iErr base rest st1 sig := by
  simp only [walkChildren]
  rw [hw]
  cases sig <;> rfl

/-- The two fields of Poller guarding the incremental fast paths: lastScan
(none models the zero time.Time) and the dirModTime table. -/
structure PState where
  lastScan : Option Nat
  dirMod : List (String × Nat)
  deriving DecidableEq, Repr

/-- Everything observable about one Poller.Scan call. -/
structure ScanResult where
  state : PState
  calls : List (String × FileInfo)
  visited : List String
  retErr : Option GoErr
  deriving DecidableEq, Repr

/-- Poller.Scan: captures the previous lastScan, stores the scan start time
as the new lastScan, walks the root with the shared dirModTime table, prunes
the table to the directories visited in this walk (cleanupDirModTime), and
returns the WalkDir error (filepath.SkipDir never escapes WalkDir). -/
def Poller.Scan (h : Handler) (skipDirs : List String)
    (wErr : String → Option GoErr) (iErr : String → Bool)
    (rootPath : String) (root : FSTree) (scanStart : Nat) (p : PState) :
    ScanResult :=
  let lastScan := p.lastScan
  let r := walkET h skipDirs lastScan wErr iErr rootPath root ⟨[], [], p.dirMod⟩
  { state :=
      { lastScan := some scanStart,
        dirMod := r.1.dirMod.filter (fun kv => r.1.visited.contains kv.1) },
    calls := r.1.calls,
    visited := r.1.visited,
    retErr :=
      match r.2 with
      | .abort e => some e
      | _ => none }

mutual

/-- filepath.Walk of Watcher.AddRecursive over one subtree: non-directories
are skipped; a directory matching the hardcoded skip list or the dotted-name
rule returns filepath.SkipDir (pruned: not watched, not descended into);
otherwise the watch is added — a failure (injected via addFail) is logged
and the walk still continues and descends. Returns the watched directories
in registration order. -/
def addWalk (addFail : String → Bool) (path : String) (t : FSTree)
    (watched : List String) : List String :=
  match t with
  | .file _ _ => watched
  | .dir name _ children =>
      if skipName watcherSkipDirs name then watched
      else if addFail path then addChildren addFail path children watched
      else addChildren addFail path children (watched ++ [path])

/-- Walk the children for AddRecursive. -/
def addChildren (addFail : String → Bool) (base : String) (ts : List FSTree)
    (watched : List String) : List String :=
  match ts with
  | [] => watched
  | t :: rest =>
      addChildren addFail base rest
        (addWalk addFail (pathJoin base t.name) t watched)

end

/-- C2 (amended): when Scan visits a directory D (no walk or Info error at
D), a previous scan exists, and the fingerprint table holds exactly D's
current modification time for D — the state a previous non-initial scan
leaves behind for a directory unchanged since — then this visit invokes the
Handler for D's own entry and for no descendant: nothing below D is visited,
and the fingerprint table is left unchanged. The original claim, quantified
over ANY two consecutive scans, fails for the first pair, because the
initial scan (lastScan zero) records no fingerprints at all. -/
theorem scan_unchanged_dir_pruned
    (h : Handler) (sk : List String) (ls : Nat)
    (wErr : String → Option GoErr) (iErr : String → Bool)
    (path name : String) (mtime : Nat) (children : List FSTree) (st : CbState)
    (hw : wErr path = none) (hi : iErr path = false)
    (hfp : mlookup st.dirMod path = some mtime) :
    walkET h sk (some ls) wErr iErr path (.dir name mtime children) st =
      ({ st with calls := st.calls ++ [(path, ⟨name, true, mtime⟩)],
                 visited := st.visited ++ [path] }, WSig.cont) := by
  have hssd : shouldSkipDir st.dirMod path mtime = true := by
    unfold shouldSkipDir
    rw [hfp]
    simp
  simp only [walkET, walkCallback, dentryOf, hw, hi]
  simp only [Option.isSome_none, Bool.false_eq_true, if_false, if_true,
    Bool.true_eq_false]
  cases hh : h path ⟨name, true, mtime⟩ with
  | none =>
      simp only []
      by_cases hsn : skipName sk name
      · simp [hsn]
      · simp [hsn, hssd]
  | some e =>
      cases e with
      | skipDir => simp
      | msg s =>
          simp only []
          by_cases hsn : skipName sk name
          · simp [hsn]
          · simp [hsn, hssd]

/-- C2 counterexample: the tree /r containing directory a with subdirectory
b is scanned twice by a fresh poller with a trivial Handler, with no change
in between; a is unchanged between the two consecutive scans, yet the second
scan still invokes the Handler for the descendant directory /r/a/b — the
initial scan recorded no fingerprints, so the second scan descends. -/
theorem scan_second_scan_descendant_cex :
    ((Poller.Scan (fun _ _ => none) defaultSkipDirs (fun _ => none)
        (fun _ => false) "/r"
        (FSTree.dir "r" 10 [FSTree.dir "a" 5 [FSTree.dir "b" 3 []]]) 200
        (Poller.Scan (fun _ _ => none) defaultSkipDirs (fun _ => none)
          (fun _ => false) "/r"
          (FSTree.dir "r" 10 [FSTree.dir "a" 5 [FSTree.dir "b" 3 []]]) 100
          ⟨none, []⟩).state).calls.map Prod.fst) = ["/r", "/r/a", "/r/a/b"] ∧
    "/r/a/b" ∈ ((Poller.Scan (fun _ _ => none) defaultSkipDirs (fun _ => none)
        (fun _ => false) "/r"
        (FSTree.dir "r" 10 [FSTree.dir "a" 5 [FSTree.dir "b" 3 []]]) 200
        (Poller.Scan (fun _ _ => none) defaultSkipDirs (fun _ => none)
          (fun _ => false) "/r"
          (FSTree.dir "r" 10 [FSTree.dir "a" 5 [FSTree.dir "b" 3 []]]) 100
          ⟨none, []⟩).state).calls.map Prod.fst) := by
  constructor
  · decide
  · decide

/-- Witness for C2 (amended): visiting /r/a with mtime 5, a previous scan at
time 100, and the fingerprint table holding 5 for /r/a invokes the Handler
for /r/a only and prunes the subtree below it. -/
theorem scan_unchanged_dir_pruned_witness :
    walkET (fun _ _ => none) defaultSkipDirs (some 100) (fun _ => none)
      (fun _ => false) "/r/a" (FSTree.dir "a" 5 [FSTree.dir "b" 3 []])
      ⟨[], [], [("/r/a", 5)]⟩ =
      (⟨[("/r/a", ⟨"a", true, 5⟩)], ["/r/a"], [("/r/a", 5)]⟩, WSig.cont) := by
  have h := scan_unchanged_dir_pruned (fun _ _ => none) defaultSkipDirs 100
    (fun _ => none) (fun _ => false) "/r/a" "a" 5 [FSTree.dir "b" 3 []]
    ⟨[], [], [("/r/a", 5)]⟩ rfl rfl (by decide)
  exact h

/-- C3 (amended): during Scan, a visited directory (no walk or Info error)
whose name is in the static skip set or begins with a dot is pruned right
after its own Handler call, with no fingerprint check or record; during
AddRecursive such a directory is pruned without registering a watch on it or
on anything below it. The only dotted name the rule exempts is the literal
name "."; the root gets no special exemption (see the counterexample). -/
theorem static_skip_set_pruning :
    (∀ (h : Handler) (sk : List String) (ls : Option Nat)
        (wErr : String → Option GoErr) (iErr : String → Bool)
        (path name : String) (mtime : Nat) (children : List FSTree)
        (st : CbState),
        wErr path = none → iErr path = false → skipName sk name = true →
        walkET h sk ls wErr iErr path (.dir name mtime children) st =
          ({ st with calls := st.calls ++ [(path, ⟨name, true, mtime⟩)],
                     visited := st.visited ++ [path] }, WSig.cont)) ∧
    (∀ (addFail : String → Bool) (path name : String) (mtime : Nat)
        (children : List FSTree) (watched : List String),
        skipName watcherSkipDirs name = true →
        addWalk addFail path (.dir name mtime children) watched = watched) ∧
    skipName defaultSkipDirs "." = false ∧
    skipName watcherSkipDirs "." = false := by
  refine ⟨?_, ?_, by decide, by decide⟩
  · intro h sk ls wErr iErr path name mtime children st hw hi hsn
    simp only [walkET, walkCallback, dentryOf, hw, hi]
    simp only [Option.isSome_none, Bool.false_eq_true, if_false, if_true,
      Bool.true_eq_false]
    cases hh : h path ⟨name, true, mtime⟩ with
    | none => simp [hsn]
    | some e =>
        cases e with
        | skipDir => simp
        | msg s => simp [hsn]
  · intro addFail path name mtime children watched hsn
    simp [addWalk, hsn]

/-- C3 counterexample: the root is not exempt from the dotted-name rule.
With root /home/u/.data (base name starting with a dot) AddRecursive
registers no watch at all — not even on the root — and Scan prunes at the
root itself, invoking the Handler only for the root and never visiting the
child file; this contradicts "except the root directory itself, which is
never pruned by this rule even when its own name begins with a dot". -/
theorem skip_root_not_exempt_cex :
    addWalk (fun _ => false) "/home/u/.data"
      (FSTree.dir ".data" 5 [FSTree.dir "sub" 3 []]) [] = [] ∧
    ((Poller.Scan (fun _ _ => none) defaultSkipDirs (fun _ => none)
        (fun _ => false) "/home/u/.data"
        (FSTree.dir ".data" 5 [FSTree.file "f" 1]) 100
        ⟨none, []⟩).calls.map Prod.fst) = ["/home/u/.data"] := by
  constructor
  · decide
  · decide

/-- Witness for C3 (amended): a node_modules directory under /r is pruned by
Scan right after its own Handler call, and AddRecursive registers no watch
under a .git root. -/
theorem static_skip_set_pruning_witness :
    walkET (fun _ _ => none) defaultSkipDirs none (fun _ => none)
      (fun _ => false) "/r/node_modules"
      (FSTree.dir "node_modules" 7 [FSTree.file "x" 1]) ⟨[], [], []⟩ =
      (⟨[("/r/node_modules", ⟨"node_modules", true, 7⟩)], ["/r/node_modules"],
        []⟩, WSig.cont) ∧
    addWalk (fun _ => false) "/r/.git" (FSTree.dir ".git" 2 [FSTree.dir "o" 1 []])
      [] = [] := by
  have h := static_skip_set_pruning
  exact ⟨h.1 (fun _ _ => none) defaultSkipDirs none (fun _ => none)
      (fun _ => false) "/r/node_modules" "node_modules" 7 [FSTree.file "x" 1]
      ⟨[], [], []⟩ rfl rfl (by decide),
    h.2.1 (fun _ => false) "/r/.git" ".git" 2 [FSTree.dir "o" 1 []] []
      (by decide)⟩

/-- C7: for a regular file visited by Scan (no walk or Info error): when a
previous scan exists (lastScan non-zero) and the file's modification time is
strictly before that scan's start time, the Handler is not invoked for the
file; otherwise — first scan, or modification time not before the previous
start — the Handler is invoked for it. -/
theorem scan_file_mtime_fastpath
    (h : Handler) (sk : List String) (wErr : String → Option GoErr)
    (iErr : String → Bool) (path name : String) (mtime : Nat) (st : CbState)
    (hw : wErr path = none) (hi : iErr path = false) :
    (∀ ls, mtime < ls →
        walkET h sk (some ls) wErr iErr path (.file name mtime) st =
          (st, WSig.cont)) ∧
    (∀ ls, ¬ mtime < ls →
        walkET h sk (some ls) wErr iErr path (.file name mtime) st =
          ({ st with calls := st.calls ++ [(path, ⟨name, false, mtime⟩)] },
            WSig.cont)) ∧
    walkET h sk none wErr iErr path (.file name mtime) st =
      ({ st with calls := st.calls ++ [(path, ⟨name, false, mtime⟩)] },
        WSig.cont) := by
  refine ⟨?_, ?_, ?_⟩
  · intro ls hlt
    simp only [walkET, walkCallback, dentryOf, hw, hi]
    simp [hlt]
  · intro ls hlt
    simp only [walkET, walkCallback, dentryOf, hw, hi]
    simp [hlt]
  · simp only [walkET, walkCallback, dentryOf, hw, hi]
    simp

/-- Witness for C7 at concrete inputs: with a previous scan at 100 the file
with mtime 40 is skipped and the file with mtime 100 is handled; on the
first scan the file with mtime 40 is handled. -/
theorem scan_file_mtime_fastpath_witness :
    walkET (fun _ _ => none) defaultSkipDirs (some 100) (fun _ => none)
      (fun _ => false) "/r/f" (FSTree.file "f" 40) ⟨[], [], []⟩ =
      (⟨[], [], []⟩, WSig.cont) ∧
    walkET (fun _ _ => none) defaultSkipDirs (some 100) (fun _ => none)
      (fun _ => false) "/r/f" (FSTree.file "f" 100) ⟨[], [], []⟩ =
      (⟨[("/r/f", ⟨"f", false, 100⟩)], [], []⟩, WSig.cont) ∧
    walkET (fun _ _ => none) defaultSkipDirs none (fun _ => none)
      (fun _ => false) "/r/f" (FSTree.file "f" 40) ⟨[], [], []⟩ =
      (⟨[("/r/f", ⟨"f", false, 40⟩)], [], []⟩, WSig.cont) := by
  refine ⟨?_, ?_, ?_⟩
  · exact (scan_file_mtime_fastpath (fun _ _ => none) defaultSkipDirs
      (fun _ => none) (fun _ => false) "/r/f" "f" 40 ⟨[], [], []⟩ rfl rfl).1
      100 (by decide)
  · exact (scan_file_mtime_fastpath (fun _ _ => none) defaultSkipDirs
      (fun _ => none) (fun _ => false) "/r/f" "f" 100 ⟨[], [], []⟩ rfl rfl).2.1
      100 (by decide)
  · exact (scan_file_mtime_fastpath (fun _ _ => none) defaultSkipDirs
      (fun _ => none) (fun _ => false) "/r/f" "f" 40 ⟨[], [], []⟩ rfl rfl).2.2

theorem walkCallback_nil_or_skip (h : Handler) (sk : List String)
    (ls : Option Nat) (path : String) (wE : Option GoErr) (d : DEntry)
    (st : CbState) :
    (walkCallback h sk ls path wE d st).2 = none ∨
    (walkCallback h sk ls path wE d st).2 = some GoErr.skipDir := by
  unfold walkCallback
  repeat' split
  all_goals try simp
  all_goals try split_ifs
  all_goals simp

theorem walkCallback_calls_mono (h : Handler) (sk : List String)
    (ls : Option Nat) (path : String) (wE : Option GoErr) (d : DEntry)
    (st : CbState) :
    ∃ suf, (walkCallback h sk ls path wE d st).1.calls = st.calls ++ suf := by
  unfold walkCallback
  repeat' split
  all_goals try simp
  all_goals try split_ifs
  all_goals simp

mutual

theorem walkET_no_abort (h : Handler) (sk : List String) (ls : Option Nat)
    (wErr : String → Option GoErr) (iErr : String → Bool) :
    ∀ (t : FSTree) (path : String) (st : CbState) (e : GoErr),
      (walkET h sk ls wErr iErr path t st).2 ≠ WSig.abort e
  | .file name mtime => by
      intro path st e
      rcases hcb : walkCallback h sk ls path (wErr path)
        (dentryOf iErr path (.file name mtime)) st with ⟨st1, out⟩
      have hval := walkCallback_nil_or_skip h sk ls path (wErr path)
        (dentryOf iErr path (.file name mtime)) st
      rw [hcb] at hval
      rw [walkET_file_eq h sk ls wErr iErr path name mtime st st1 out hcb]
      rcases hval with h1 | h1
      · have hout : out = none := h1
        subst hout
        simp [sigOfFileOut]
      · have hout : out = some GoErr.skipDir := h1
        subst hout
        simp [sigOfFileOut]
  | .dir name mtime children => by
      intro path st e
      rcases hcb : walkCallback h sk ls path (wErr path)
        (dentryOf iErr path (.dir name mtime children)) st with ⟨st1, out⟩
      have hval := walkCallback_nil_or_skip h sk ls path (wErr path)
        (dentryOf iErr path (.dir name mtime children)) st
      rw [hcb] at hval
      rw [walkET_dir_eq h sk ls wErr iErr path name mtime children st st1 out hcb]
      rcases hval with h1 | h1
      · have hout : out = none := h1
        subst hout
        simp only [sigOfDirOut]
        split
        · simp
        · exact walkChildren_no_abort h sk ls wErr iErr children path st1 e
      · have hout : out = some GoErr.skipDir := h1
        subst hout
        simp [sigOfDirOut]

theorem walkChildren_no_abort (h : Handler) (sk : List String)
    (ls : Option Nat) (wErr : String → Option GoErr) (iErr : String → Bool) :
    ∀ (ts : List FSTree) (base : String) (st : CbState) (e : GoErr),
      (walkChildren h sk ls wErr iErr base ts st).2 ≠ WSig.abort e
  | [] => by
      intro base st e
      simp [walkChildren]
  | t :: rest => by
      intro base st e
      rcases hw : walkET h sk ls wErr iErr (pathJoin base t.name) t st
        with ⟨st1, sig⟩
      rw [walkChildren_cons_eq h sk ls wErr iErr base t rest st st1 sig hw]
      cases sig with
      | cont => exact walkChildren_no_abort h sk ls wErr iErr rest base st1 e
      | skipSiblings => simp [contOfSig]
      | abort e2 =>
          exact absurd (congrArg Prod.snd hw)
            (walkET_no_abort h sk ls wErr iErr t (pathJoin base t.name) st e2)

end

mutual

theorem walkET_calls_mono (h : Handler) (sk : List String) (ls : Option Nat)
    (wErr : String → Option GoErr) (iErr : String → Bool) :
    ∀ (t : FSTree) (path : String) (st : CbState),
      ∃ suf, (walkET h sk ls wErr iErr path t st).1.calls = st.calls ++ suf
  | .file name mtime => by
      intro path st
      rcases hcb : walkCallback h sk ls path (wErr path)
        (dentryOf iErr path (.file name mtime)) st with ⟨st1, out⟩
      obtain ⟨suf, hsuf⟩ := walkCallback_calls_mono h sk ls path (wErr path)
        (dentryOf iErr path (.file name mtime)) st
      rw [hcb] at hsuf
      rw [walkET_file_eq h sk ls wErr iErr path name mtime st st1 out hcb]
      cases out with
      | none => exact ⟨suf, hsuf⟩
      | some e => cases e <;> exact ⟨suf, hsuf⟩

  | .dir name mtime children => by
      intro path st
      rcases hcb : walkCallback h sk ls path (wErr path)
        (dentryOf iErr path (.dir name mtime children)) st with ⟨st1, out⟩
      obtain ⟨suf, hsuf⟩ := walkCallback_calls_mono h sk ls path (wErr path)
        (dentryOf iErr path (.dir name mtime children)) st
      rw [hcb] at hsuf
      rw [walkET_dir_eq h sk ls wErr iErr path name mtime children st st1 out hcb]
      have hval := walkCallback_nil_or_skip h sk ls path (wErr path)
        (dentryOf iErr path (.dir name mtime children)) st
      rw [hcb] at hval
      rcases hval with h1 | h1
      · have hout : out = none := h1
        subst hout
        simp only [sigOfDirOut]
        split
        · exact ⟨suf, hsuf⟩
        · obtain ⟨suf2, hsuf2⟩ := walkChildren_calls_mono h sk ls wErr iErr
            children path st1
          exact ⟨suf ++ suf2, by rw [hsuf2, hsuf, List.append_assoc]⟩
      · have hout : out = some GoErr.skipDir := h1
        subst hout
        exact ⟨suf, hsuf⟩

theorem walkChildren_calls_mono (h : Handler) (sk : List String)
    (ls : Option Nat) (wErr : String → Option GoErr) (iErr : String → Bool) :
    ∀ (ts : List FSTree) (base : String) (st : CbState),
      ∃ suf, (walkChildren h sk ls wErr iErr base ts st).1.calls =
        st.calls ++ suf
  | [] => by
      intro base st
      exact ⟨[], by simp [walkChildren]⟩
  | t :: rest => by
      intro base st
      rcases hw : walkET h sk ls wErr iErr (pathJoin base t.name) t st
        with ⟨st1, sig⟩
      have hmono1 : ∃ suf, st1.calls = st.calls ++ suf := by
        obtain ⟨suf, hsuf⟩ := walkET_calls_mono h sk ls wErr iErr t
          (pathJoin base t.name) st
        rw [hw] at hsuf
        exact ⟨suf, hsuf⟩
      obtain ⟨suf1, hsuf1⟩ := hmono1
      rw [walkChildren_cons_eq h sk ls wErr iErr base t rest st st1 sig hw]
      cases sig with
      | cont =>
          obtain ⟨suf2, hsuf2⟩ := walkChildren_calls_mono h sk ls wErr iErr
            rest base st1
          refine ⟨suf1 ++ suf2, ?_⟩
          simp only [contOfSig]
          rw [hsuf2, hsuf1, List.append_assoc]
      | skipSiblings => exact ⟨suf1, hsuf1⟩
      | abort e => exact ⟨suf1, hsuf1⟩

end

theorem walkCallback_dir_calls (h : Handler) (sk : List String)
    (ls : Option Nat) (wErr : String → Option GoErr) (iErr : String → Bool)
    (path name : String) (mtime : Nat) (children : List FSTree) (st : CbState)
    (hw : wErr path = none) (hi : iErr path = false) :
    (walkCallback h sk ls path (wErr path)
      (dentryOf iErr path (.dir name mtime children)) st).1.calls =
      st.calls ++ [(path, ⟨name, true, mtime⟩)] := by
  simp only [walkCallback, dentryOf, hw, hi]
  repeat' split
  all_goals simp_all

theorem walkCallback_dir_skip (h : Handler) (sk : List String)
    (ls : Option Nat) (wErr : String → Option GoErr) (iErr : String → Bool)
    (path name : String) (mtime : Nat) (children : List FSTree) (st : CbState)
    (hw : wErr path = none) (hi : iErr path = false)
    (hh : h path ⟨name, true, mtime⟩ = some GoErr.skipDir) :
    walkCallback h sk ls path (wErr path)
      (dentryOf iErr path (.dir name mtime children)) st =
      ({ st with calls := st.calls ++ [(path, ⟨name, true, mtime⟩)],
                 visited := st.visited ++ [path] }, some GoErr.skipDir) := by
  simp only [walkCallback, dentryOf, hw, hi]
  simp [hh]

/-- C6: for every directory D visited by Scan (no walk or Info error at D),
the Handler is invoked for D's own entry before any decision to descend into
or prune D — D's call is appended to the call list before anything the
subtree adds — and whenever the Handler returns the ErrSkipDir sentinel for
D, the subtree contributes exactly D's own call, no entry under D is
visited, and the modification-time fast path is not applied to D: the
fingerprint table is untouched. -/
theorem scan_handler_first_and_skipdir
    (h : Handler) (sk : List String) (ls : Option Nat)
    (wErr : String → Option GoErr) (iErr : String → Bool)
    (path name : String) (mtime : Nat) (children : List FSTree) (st : CbState)
    (hw : wErr path = none) (hi : iErr path = false) :
    (∃ rest,
        (walkET h sk ls wErr iErr path (.dir name mtime children) st).1.calls =
          st.calls ++ (path, ⟨name, true, mtime⟩) :: rest) ∧
    (h path ⟨name, true, mtime⟩ = some GoErr.skipDir →
      walkET h sk ls wErr iErr path (.dir name mtime children) st =
        ({ st with calls := st.calls ++ [(path, ⟨name, true, mtime⟩)],
                   visited := st.visited ++ [path] }, WSig.cont)) := by
  constructor
  · rcases hcb : walkCallback h sk ls path (wErr path)
      (dentryOf iErr path (.dir name mtime children)) st with ⟨st1, out⟩
    have hcalls := walkCallback_dir_calls h sk ls wErr iErr path name mtime
      children st hw hi
    rw [hcb] at hcalls
    have hval := walkCallback_nil_or_skip h sk ls path (wErr path)
      (dentryOf iErr path (.dir name mtime children)) st
    rw [hcb] at hval
    rw [walkET_dir_eq h sk ls wErr iErr path name mtime children st st1 out hcb]
    rcases hval with h1 | h1
    · have hout : out = none := h1
      subst hout
      simp only [sigOfDirOut, hw, Option.isSome_none, Bool.false_eq_true,
        if_false]
      obtain ⟨suf2, hsuf2⟩ := walkChildren_calls_mono h sk ls wErr iErr
        children path st1
      refine ⟨suf2, ?_⟩
      rw [hsuf2, hcalls, List.append_assoc, List.singleton_append]
    · have hout : out = some GoErr.skipDir := h1
      subst hout
      refine ⟨[], ?_⟩
      simp only [sigOfDirOut]
      rw [hcalls]
  · intro hh
    have hcb := walkCallback_dir_skip h sk ls wErr iErr path name mtime
      children st hw hi hh
    rw [walkET_dir_eq h sk ls wErr iErr path name mtime children st _ _ hcb]
    rfl

/-- Witness for C6 at a concrete directory: a Handler returning ErrSkipDir
for /r/a makes the subtree contribute only the call for /r/a, with the
fingerprint table untouched. -/
theorem scan_handler_first_and_skipdir_witness :
    (∃ rest,
        (walkET (fun q _ => if q = "/r/a" then some GoErr.skipDir else none)
          defaultSkipDirs (some 100) (fun _ => none) (fun _ => false) "/r/a"
          (FSTree.dir "a" 5 [FSTree.file "x" 1]) ⟨[], [], []⟩).1.calls =
          [] ++ ("/r/a", ⟨"a", true, 5⟩) :: rest) ∧
    ((fun q (_ : FileInfo) => if q = "/r/a" then some GoErr.skipDir else none)
        "/r/a" ⟨"a", true, 5⟩ = some GoErr.skipDir →
      walkET (fun q _ => if q = "/r/a" then some GoErr.skipDir else none)
        defaultSkipDirs (some 100) (fun _ => none) (fun _ => false) "/r/a"
        (FSTree.dir "a" 5 [FSTree.file "x" 1]) ⟨[], [], []⟩ =
        (⟨[("/r/a", ⟨"a", true, 5⟩)], ["/r/a"], []⟩, WSig.cont)) := by
  have h := scan_handler_first_and_skipdir
    (fun q _ => if q = "/r/a" then some GoErr.skipDir else none)
    defaultSkipDirs (some 100) (fun _ => none) (fun _ => false) "/r/a" "a" 5
    [FSTree.file "x" 1] ⟨[], [], []⟩ rfl rfl
  exact h

/-- C9: every per-entry walk error and every Handler-returned error (the
ErrSkipDir sentinel or any other) is absorbed inside the walk callback,
which only ever returns nil or the ErrSkipDir sentinel; consequently the
error Poller.Scan returns from the walk is nil for every filesystem tree,
handler, skip set, injected error pattern and poller state. -/
theorem scan_never_returns_error :
    (∀ (h : Handler) (sk : List String) (ls : Option Nat) (path : String)
        (wE : Option GoErr) (d : DEntry) (st : CbState),
        (walkCallback h sk ls path wE d st).2 = none ∨
        (walkCallback h sk ls path wE d st).2 = some GoErr.skipDir) ∧
    (∀ (h : Handler) (sk : List String) (wErr : String → Option GoErr)
        (iErr : String → Bool) (rootPath : String) (root : FSTree)
        (scanStart : Nat) (p : PState),
        (Poller.Scan h sk wErr iErr rootPath root scanStart p).retErr =
          none) := by
  refine ⟨walkCallback_nil_or_skip, ?_⟩
  intro h sk wErr iErr rootPath root scanStart p
  rcases hw : walkET h sk p.lastScan wErr iErr rootPath root ⟨[], [], p.dirMod⟩
    with ⟨st1, sig⟩
  have hna := walkET_no_abort h sk p.lastScan wErr iErr root rootPath
    ⟨[], [], p.dirMod⟩
  cases sig with
  | cont => simp [Poller.Scan, hw]
  | skipSiblings => simp [Poller.Scan, hw]
  | abort e => exact absurd (congrArg Prod.snd hw) (hna e)

/-- C4 counterexample: a fresh poller scans the tree /r containing the
directory /r/a; both directories are visited, yet the fingerprint table is
empty after the scan — the initial scan has lastScan zero and records
nothing — so "an entry is present if and only if the directory was visited
in the most recently completed scan" fails in the if direction. -/
theorem dirModTime_iff_visited_cex :
    ("/r/a" ∈ (Poller.Scan (fun _ _ => none) defaultSkipDirs (fun _ => none)
        (fun _ => false) "/r" (FSTree.dir "r" 10 [FSTree.dir "a" 5 []]) 100
        ⟨none, []⟩).visited) ∧
    mlookup (Poller.Scan (fun _ _ => none) defaultSkipDirs (fun _ => none)
        (fun _ => false) "/r" (FSTree.dir "r" 10 [FSTree.dir "a" 5 []]) 100
        ⟨none, []⟩).state.dirMod "/r/a" = none := by
  constructor
  · decide
  · decide

/-- C4 (amended): after every completed Scan, the fingerprint table holds an
entry ONLY for directories visited during that scan — in particular a
directory deleted between two scans, hence unvisited, has no entry once the
next scan completes. The converse (every visited directory has an entry)
does not hold: the initial scan and pruned directories record nothing. -/
theorem dirModTime_only_if_visited
    (h : Handler) (sk : List String) (wErr : String → Option GoErr)
    (iErr : String → Bool) (rootPath : String) (root : FSTree)
    (scanStart : Nat) (p : PState) (q : String) :
    ((mlookup (Poller.Scan h sk wErr iErr rootPath root scanStart
        p).state.dirMod q).isSome →
      q ∈ (Poller.Scan h sk wErr iErr rootPath root scanStart p).visited) ∧
    (q ∉ (Poller.Scan h sk wErr iErr rootPath root scanStart p).visited →
      mlookup (Poller.Scan h sk wErr iErr rootPath root scanStart
        p).state.dirMod q = none) := by
  rcases hw : walkET h sk p.lastScan wErr iErr rootPath root ⟨[], [], p.dirMod⟩
    with ⟨st1, sig⟩
  have hdm : (Poller.Scan h sk wErr iErr rootPath root scanStart
      p).state.dirMod = st1.dirMod.filter (fun kv => st1.visited.contains kv.1) := by
    simp [Poller.Scan, hw]
  have hvx : (Poller.Scan h sk wErr iErr rootPath root scanStart p).visited =
      st1.visited := by
    simp [Poller.Scan, hw]
  rw [hdm, hvx]
  constructor
  · intro hq
    obtain ⟨v, hv⟩ := Option.isSome_iff_exists.mp hq
    have hmem := mlookup_some_mem _ _ _ hv
    have hf := (List.mem_filter.mp hmem).2
    simpa using hf
  · intro hq
    apply mlookup_eq_none
    intro kv hkv hkq
    have hf := (List.mem_filter.mp hkv).2
    rw [hkq] at hf
    simp at hf
    exact hq hf

/-- Witness for C4 (amended) at a concrete scan: after scanning /r (which
contains only the file /r/f), the table has no entry for the unvisited
directory /r/gone even though the incoming state carried a stale entry for
it, matching the deleted-directory clause. -/
theorem dirModTime_only_if_visited_witness :
    mlookup (Poller.Scan (fun _ _ => none) defaultSkipDirs (fun _ => none)
      (fun _ => false) "/r" (FSTree.dir "r" 10 [FSTree.file "f" 1]) 200
      ⟨some 100, [("/r/gone", 7)]⟩).state.dirMod "/r/gone" = none := by
  have h := dirModTime_only_if_visited (fun _ _ => none) defaultSkipDirs
    (fun _ => none) (fun _ => false) "/r" (FSTree.dir "r" 10 [FSTree.file "f" 1])
    200 ⟨some 100, [("/r/gone", 7)]⟩ "/r/gone"
  exact h.2 (by decide)

/-! Processed-file cache (internal/state/state.go). -/

/-- Entry from state.go: inode, modification time, insertion time. -/
structure Entry where
  inode : Nat
  mtime : Nat
  added : Nat
  deriving DecidableEq, Repr

/-- The (inode, mtime) fingerprint getInode and ModTime extract from an
os.FileInfo for the cache. -/
structure FileId where
  inode : Nat
  mtime : Nat
  deriving DecidableEq, Repr

/-- Cache from state.go: path-keyed entries with a TTL. -/
structure Cache where
  entries : List (String × Entry)
  ttl : Nat
  deriving DecidableEq, Repr

/-- Cache.Has with lazy eviction: a missing entry is false; an entry whose
age exceeds the TTL (time.Since(added) > ttl, rendered overflow-safely as
ttl < now - added on Nat — a clock that went backwards gives age 0, false
either way) is deleted and false; otherwise the entry matches when its inode
equals the inode of the given FileInfo and its stored mod time equals the
FileInfo mod time. Returns the result and the possibly-evicted cache. -/
def Cache.Has (c : Cache) (path : String) (fid : FileId) (now : Nat) :
    Bool × Cache :=
  match mlookup c.entries path with
  | none => (false, c)
  | some e =>
      if c.ttl < now - e.added then
        (false, { c with entries := mapDelete c.entries path })
      else
        (decide (e.inode = fid.inode ∧ e.mtime = fid.mtime), c)

/-- Cache.Add: store or overwrite the entry for the path with the FileInfo
fingerprint and the current time. -/
def Cache.Add (c : Cache) (path : String) (fid : FileId) (now : Nat) : Cache :=
  { c with entries := mapInsert c.entries path ⟨fid.inode, fid.mtime, now⟩ }

/-- C10: immediately after Cache.Add(path, info) at time t1, a call
Cache.Has(path, info2) at time t2 returns true exactly when the entry age is
within the TTL and info2 has the same inode and an equal modification time
as info; and Has on any entry older than the TTL returns false and removes
that entry from the cache. -/
theorem cache_add_has_ttl (c : Cache) (path : String) (fid fid2 : FileId)
    (t1 t2 : Nat) :
    ((Cache.Has (Cache.Add c path fid t1) path fid2 t2).1 = true ↔
      (t2 - t1 ≤ c.ttl ∧ fid2.inode = fid.inode ∧ fid2.mtime = fid.mtime)) ∧
    (∀ (c2 : Cache) (q : String) (e : Entry) (now : Nat) (fid3 : FileId),
        mlookup c2.entries q = some e → c2.ttl < now - e.added →
        (Cache.Has c2 q fid3 now).1 = false ∧
        mlookup (Cache.Has c2 q fid3 now).2.entries q = none) := by
  constructor
  · have hlk : mlookup (Cache.Add c path fid t1).entries path =
        some ⟨fid.inode, fid.mtime, t1⟩ := mlookup_mapInsert_self _ _ _
    unfold Cache.Has
    rw [hlk]
    by_cases hexp : c.ttl < t2 - t1
    · simp only [Cache.Add]
      simp [hexp]
      omega
    · simp only [Cache.Add]
      simp [hexp]
      constructor
      · intro hcon
        exact ⟨by omega, hcon.1.symm, hcon.2.symm⟩
      · intro hcon
        exact ⟨hcon.2.1.symm, hcon.2.2.symm⟩
  · intro c2 q e now fid3 hlk hexp
    unfold Cache.Has
    rw [hlk]
    simp [hexp, mapDelete]
    have h0 := mlookup_filter_ne_none c2.entries q
    simpa [mapDelete] using h0

/-- Witness for C10 at concrete values: a fresh add at time 0 with TTL 60 is
found at time 30 with matching fingerprint; an entry added at 0 with TTL 3
is expired at time 10: Has returns false and removes it. -/
theorem cache_add_has_ttl_witness :
    ((Cache.Has (Cache.Add ⟨[], 60⟩ "p" ⟨7, 9⟩ 0) "p" ⟨7, 9⟩ 30).1 = true) ∧
    ((Cache.Has ⟨[("q", ⟨1, 2, 0⟩)], 3⟩ "q" ⟨1, 2⟩ 10).1 = false ∧
      mlookup (Cache.Has ⟨[("q", ⟨1, 2, 0⟩)], 3⟩ "q" ⟨1, 2⟩ 10).2.entries "q" =
        none) := by
  have h1 := cache_add_has_ttl ⟨[], 60⟩ "p" ⟨7, 9⟩ ⟨7, 9⟩ 0 30
  refine ⟨h1.1.mpr (by decide), ?_⟩
  exact h1.2 ⟨[("q", ⟨1, 2, 0⟩)], 3⟩ "q" ⟨1, 2, 0⟩ 10 ⟨1, 2⟩ (by decide)
    (by decide)

end DropIgn
